import Mathlib

/-!
# pdf-lib-autotable: line wrapping and table layout

A shallow embedding of `src/index.js`.

* Numbers are rationals (`ℚ`) and the arithmetic of the layout model is exact,
  where the code computes in IEEE 754 binary64 and rounds every operation. The
  statements on the exact model are kept to the expressions the code itself
  evaluates (a branch test, a cursor update, a width, a left edge). Where a
  claim rests on an identity between two such expressions, the same lines are
  also given in binary64 (`round64`, `cellWidth64`, `cellStartX64`,
  `cellHeight64`, `rowLoop64`), and the identity is tried there.
* A string is a list of characters (`Str`); `slice(0, k)` is `List.take k`,
  `slice(k)` is `List.drop k`, `split(' ')` is `List.splitOn ' '` and
  `join(' ')` is `List.intercalate [' ']`.
* The font is an external collaborator: its two measuring functions are
  fields of `Font` and every theorem quantifies over them.
* The `while` loop of `wrapTextIntoLines` is run with a budget of iterations
  (`fuel`); running out of budget is the fault `Fault.outOfFuel`.
* Calling `.split` on a value that is not a string is the fault
  `Fault.typeError`.
* Pages are numbered: page `0` is the page `drawTable` is called on, page
  `k + 1` the `(k+1)`-th page the call adds with `doc.addPage()`. The draw
  calls are kept in a log, each with its page and its arguments.
* The row loop reads `rowHeights[i]` next to `rows[i]`: it runs over the rows
  zipped with the heights of the pre-pass.
-/

namespace AutoTable

/-- A JavaScript string, as the list of its characters. -/
abbrev Str := List Char

/-- The ways a call can fail to return a value. -/
inductive Fault where
  | typeError
  | outOfFuel
  deriving DecidableEq, Repr

instance {ε α : Type} [DecidableEq ε] [DecidableEq α] : DecidableEq (Except ε α)
  | .ok a, .ok b => if h : a = b then isTrue (by rw [h]) else isFalse (by simp [h])
  | .error a, .error b => if h : a = b then isTrue (by rw [h]) else isFalse (by simp [h])
  | .ok _, .error _ => isFalse (by simp)
  | .error _, .ok _ => isFalse (by simp)

/-- The font collaborator: `widthOfTextAtSize(text, size)` and
`heightAtSize(size)`. -/
structure Font where
  widthOfTextAtSize : Str → ℚ → ℚ
  heightAtSize : ℚ → ℚ

/-! ## wrapTextIntoLines (src/index.js 199-255) -/

/-- The character-splitting `while` loop (lines 228-237) on the state
`(wordPart, startIndex, lines)`; it returns the final `(wordPart, lines)`. -/
def splitLoop (font : Font) (fontSize maxWidth : ℚ) :
    Nat → Str → Nat → List Str → Except Fault (Str × List Str)
  | 0, wordPart, startIndex, lines =>
    if startIndex < wordPart.length then .error .outOfFuel else .ok (wordPart, lines)
  | fuel + 1, wordPart, startIndex, lines =>
    if startIndex < wordPart.length then
      if font.widthOfTextAtSize (wordPart.take (startIndex + 1)) fontSize ≤ maxWidth then
        splitLoop font fontSize maxWidth fuel wordPart (startIndex + 1) lines
      else
        splitLoop font fontSize maxWidth fuel (wordPart.drop startIndex) 0
          (lines ++ [wordPart.take startIndex])
    else .ok (wordPart, lines)

/-- One pass of the `for` loop over the words (lines 205-246) on the state
`(lines, currentLine)`. -/
def wordStep (font : Font) (fontSize maxWidth : ℚ) (fuel : Nat)
    (st : List Str × Str) (currentWord : Str) : Except Fault (List Str × Str) :=
  let lines := st.1
  let currentLine := st.2
  let currentWordWidth := font.widthOfTextAtSize currentWord fontSize
  if currentLine ≠ [] ∧
      font.widthOfTextAtSize (currentLine ++ [' '] ++ currentWord) fontSize ≤ maxWidth then
    .ok (lines, currentLine ++ [' '] ++ currentWord)
  else
    let lines := if currentLine ≠ [] then lines ++ [currentLine] else lines
    if currentWordWidth ≤ maxWidth then
      .ok (lines, currentWord)
    else
      match splitLoop font fontSize maxWidth fuel currentWord 0 lines with
      | .error e => .error e
      | .ok (wordPart, lines) =>
        .ok (if wordPart ≠ [] then lines ++ [wordPart] else lines, [])

/-- The `for` loop over the words. -/
def wordLoop (font : Font) (fontSize maxWidth : ℚ) (fuel : Nat) :
    List Str → List Str × Str → Except Fault (List Str × Str)
  | [], st => .ok st
  | w :: ws, st =>
    match wordStep font fontSize maxWidth fuel st w with
    | .error e => .error e
    | .ok st => wordLoop font fontSize maxWidth fuel ws st

/-- The function `wrapTextIntoLines(text, font, fontSize, maxWidth)`. -/
def wrapTextIntoLines (fuel : Nat) (text : Str) (font : Font) (fontSize maxWidth : ℚ) :
    Except Fault (List Str) :=
  match wordLoop font fontSize maxWidth fuel (text.splitOn ' ') ([], []) with
  | .error e => .error e
  | .ok (lines, currentLine) =>
    .ok (if currentLine ≠ [] then lines ++ [currentLine] else lines)

/-- The state of the word loop after the words `done`, when every word so far
was non-empty and fitted: nothing yet, or a non-empty accumulator and lines
that join back to the words. -/
def JoinInv (done : List Str) (st : List Str × Str) : Prop :=
  (done = [] ∧ st = ([], [])) ∨
    (done ≠ [] ∧ st.2 ≠ [] ∧
      List.intercalate [' '] (st.1 ++ [st.2]) = List.intercalate [' '] done)

/-- A fixed-pitch test font: every character is `size / 2` wide and the font
is `size` high. -/
def monoFont : Font where
  widthOfTextAtSize := fun s size => s.length * size / 2
  heightAtSize := fun size => size

/-- A font that measures a text by its number of characters, whatever the
size. -/
def countFont : Font where
  widthOfTextAtSize := fun s _ => s.length
  heightAtSize := fun size => size

/-! ## drawTable (src/index.js 11-188) -/

/-- The four sides of `margin` and of `cellPadding`. -/
structure Sides where
  top : ℚ
  bottom : ℚ
  left : ℚ
  right : ℚ
  deriving DecidableEq, Repr

/-- A colour as built by `rgb(r, g, b)`. -/
structure RGB where
  red : ℚ
  green : ℚ
  blue : ℚ
  deriving DecidableEq, Repr

/-- The constructor `rgb` of the drawing library. -/
def rgb (r g b : ℚ) : RGB := ⟨r, g, b⟩

/-- The `options` argument, with the defaults of lines 13-30. -/
structure Options where
  margin : Sides := ⟨10, 50, 50, 50⟩
  fontSize : ℚ := 14
  startPosY : ℚ := 0
  headerHeight : ℚ := 20
  borderWidth : ℚ := 1
  cellPadding : Sides := ⟨5, 5, 5, 5⟩
  deriving DecidableEq, Repr

/-- The values of a cell's `align` property. -/
inductive Align where
  | left
  | center
  deriving DecidableEq, Repr

/-- A structured cell: an object with a `text` and optional style fields
(`none` is `undefined`). -/
structure CellObject where
  text : Str
  fontSize : Option ℚ := none
  bold : Bool := false
  align : Option Align := none
  backgroundColor : Option RGB := none
  foregroundColor : Option RGB := none
  borderWidth : Option ℚ := none
  deriving DecidableEq, Repr

/-- A cell is a bare string or a structured cell. -/
inductive Cell where
  | plain (s : Str)
  | styled (o : CellObject)
  deriving DecidableEq, Repr

/-- The expression `row[j].text || row[j]`: a bare string has no `text`
property and stands for itself; an object with an empty `text` (falsy) yields
the object. -/
def cellValue : Cell → Str ⊕ CellObject
  | .plain s => .inl s
  | .styled o => if o.text ≠ [] then .inl o.text else .inr o

/-- The expression `row[j].fontSize || fontSize`. -/
def cellFontSize (fontSize : ℚ) : Cell → ℚ
  | .plain _ => fontSize
  | .styled o =>
    match o.fontSize with
    | some s => if s ≠ 0 then s else fontSize
    | none => fontSize

/-- The call `wrapTextIntoLines(cellValue, ...)`: `text.split` of a value that
is not a string throws a TypeError. -/
def wrapValue (fuel : Nat) (v : Str ⊕ CellObject) (font : Font) (fontSize maxWidth : ℚ) :
    Except Fault (List Str) :=
  match v with
  | .inl text => wrapTextIntoLines fuel text font fontSize maxWidth
  | .inr _ => .error .typeError

/-- Which embedded font a text draw names. -/
inductive FontRef where
  | font
  | boldFont
  deriving DecidableEq, Repr

/-- The argument of `drawRectangle`. -/
structure RectArgs where
  x : ℚ
  y : ℚ
  width : ℚ
  height : ℚ
  color : RGB
  borderColor : RGB
  borderWidth : ℚ
  fill : Bool
  deriving DecidableEq, Repr

/-- The arguments of `drawText`; `font` is `none` when the call passes no
font. -/
structure TextArgs where
  text : Str
  x : ℚ
  y : ℚ
  size : ℚ
  color : RGB
  font : Option FontRef
  deriving DecidableEq, Repr

/-- A drawing operation. -/
inductive DrawOp where
  | rectangle (a : RectArgs)
  | text (a : TextArgs)
  deriving DecidableEq, Repr

/-- A draw call and the page it was issued on: page `0` is the page
`drawTable` was called on, page `k + 1` the `(k+1)`-th page added by the
call. -/
structure DrawCall where
  page : Nat
  op : DrawOp
  deriving DecidableEq, Repr

/-- What `drawTable` reads from its collaborators: the regular font, the size
of the page it is called on, and the height of the pages `doc.addPage()`
returns. -/
structure Env where
  font : Font
  width : ℚ
  height : ℚ
  newPageHeight : ℚ

/-- The usable width `endX - startX`. -/
def usableWidth (env : Env) (opts : Options) : ℚ :=
  (env.width - opts.margin.right) - opts.margin.left

/-- The value `startY` (line 49). -/
def startY (opts : Options) : ℚ := opts.startPosY - opts.margin.top

/-- The value `tableStartY` (line 50). -/
def tableStartY (opts : Options) (headers : List Str) : ℚ :=
  startY opts - (if headers.length > 0 then opts.headerHeight else 0)

/-- The rectangle of the header at index `i` (lines 59-76). The width and the
left edge are the code's expressions in exact arithmetic; `cellWidth64` and
`cellStartX64` are the same expressions in binary64. -/
def headerRect (env : Env) (opts : Options) (numHeaders : Nat) (tableStartY : ℚ) (i : Nat) :
    RectArgs :=
  let startX := opts.margin.left
  let cellWidth := usableWidth env opts / numHeaders
  let cellStartX := startX + cellWidth * i
  { x := cellStartX, y := tableStartY, width := cellWidth, height := opts.headerHeight,
    color := rgb (95 / 100) (95 / 100) (95 / 100), borderColor := rgb 0 0 0,
    borderWidth := opts.borderWidth, fill := true }

/-- The body of the header loop (lines 58-84) at index `i`. -/
def drawHeader (env : Env) (opts : Options) (numHeaders : Nat) (tableStartY : ℚ)
    (i : Nat) (header : Str) : List DrawCall :=
  let startX := opts.margin.left
  let cellWidth := usableWidth env opts / numHeaders
  let cellStartX := startX + cellWidth * i
  let textHeight : ℚ := 10
  let textY := tableStartY + (opts.headerHeight - textHeight) / 2
  [ ⟨0, .rectangle (headerRect env opts numHeaders tableStartY i)⟩,
    ⟨0, .text
      { text := header, x := cellStartX + opts.cellPadding.left, y := textY,
        size := opts.fontSize, color := rgb 0 0 0, font := none }⟩ ]

/-- The header loop (lines 57-85), from index `i` on. -/
def drawHeaders (env : Env) (opts : Options) (numHeaders : Nat) (tableStartY : ℚ) :
    Nat → List Str → List DrawCall
  | _, [] => []
  | i, header :: rest =>
    drawHeader env opts numHeaders tableStartY i header ++
      drawHeaders env opts numHeaders tableStartY (i + 1) rest

/-- The height of one cell in the pre-pass (lines 97-101). -/
def cellHeight (fuel : Nat) (env : Env) (opts : Options) (numCells : Nat) (cell : Cell) :
    Except Fault ℚ :=
  let cellWidth :=
    usableWidth env opts / numCells - opts.cellPadding.left - opts.cellPadding.right
  match wrapValue fuel (cellValue cell) env.font (cellFontSize opts.fontSize cell) cellWidth with
  | .error e => .error e
  | .ok wrappedText =>
    .ok (wrappedText.length * cellFontSize opts.fontSize cell
      + opts.cellPadding.top + opts.cellPadding.bottom)

/-- The inner loop of the pre-pass (lines 96-106) on `maxCellHeight`. -/
def maxCellHeightLoop (fuel : Nat) (env : Env) (opts : Options) (numCells : Nat) :
    List Cell → ℚ → Except Fault ℚ
  | [], maxCellHeight => .ok maxCellHeight
  | cell :: rest, maxCellHeight =>
    match cellHeight fuel env opts numCells cell with
    | .error e => .error e
    | .ok h =>
      maxCellHeightLoop fuel env opts numCells rest
        (if h > maxCellHeight then h else maxCellHeight)

/-- The pre-computed height of one row (lines 92-108). -/
def rowHeight (fuel : Nat) (env : Env) (opts : Options) (row : List Cell) : Except Fault ℚ :=
  maxCellHeightLoop fuel env opts row.length row 0

/-- The pre-pass (lines 88-109): the array `rowHeights`. -/
def rowHeights (fuel : Nat) (env : Env) (opts : Options) :
    List (List Cell) → Except Fault (List ℚ)
  | [] => .ok []
  | row :: rest =>
    match rowHeight fuel env opts row with
    | .error e => .error e
    | .ok h =>
      match rowHeights fuel env opts rest with
      | .error e => .error e
      | .ok hs => .ok (h :: hs)

/-- The horizontal position `textX` of a line of a cell (lines 157-168):
left-aligned with the left padding, or centred when the cell is an object
whose `align` is `'center'`. -/
def textX (env : Env) (opts : Options) (cell : Cell) (cellStartX cellWidth : ℚ) (line : Str) :
    ℚ :=
  let textWidth := env.font.widthOfTextAtSize line (cellFontSize opts.fontSize cell)
  match cell with
  | .styled o =>
    if o.align = some Align.center then
      let cellContentWidth := cellWidth - opts.cellPadding.left - opts.cellPadding.right
      cellStartX + (cellContentWidth - textWidth) / 2
    else cellStartX + opts.cellPadding.left
  | .plain _ => cellStartX + opts.cellPadding.left

/-- The text draw of line `k` of a cell (lines 152-177). -/
def drawLine (env : Env) (opts : Options) (page : Nat) (cell : Cell)
    (cellStartX cellStartY cellWidth maxCellHeight : ℚ) (k : Nat) (line : Str) : DrawCall :=
  let size := cellFontSize opts.fontSize cell
  let fontHeight := env.font.heightAtSize size
  let baselineOffset := fontHeight * (2 / 10)
  let textY := cellStartY + maxCellHeight - opts.cellPadding.top
    - (size * (k + 1) - baselineOffset)
  ⟨page, .text
    { text := line, x := textX env opts cell cellStartX cellWidth line, y := textY, size := size,
      color :=
        match cell with
        | .styled o =>
          match o.foregroundColor with
          | some c => c
          | none => rgb 0 0 0
        | .plain _ => rgb 0 0 0,
      font :=
        match cell with
        | .styled o => if o.bold then some .boldFont else some .font
        | .plain _ => some .font }⟩

/-- The loop over the wrapped lines of a cell (lines 151-179), from index
`k` on. -/
def drawLines (env : Env) (opts : Options) (page : Nat) (cell : Cell)
    (cellStartX cellStartY cellWidth maxCellHeight : ℚ) : Nat → List Str → List DrawCall
  | _, [] => []
  | k, line :: rest =>
    drawLine env opts page cell cellStartX cellStartY cellWidth maxCellHeight k line ::
      drawLines env opts page cell cellStartX cellStartY cellWidth maxCellHeight (k + 1) rest

/-- The rectangle of a data cell (lines 137-146). -/
def cellRect (opts : Options) (cell : Cell)
    (cellStartX cellStartY cellWidth maxCellHeight : ℚ) : RectArgs :=
  { x := cellStartX, y := cellStartY, width := cellWidth, height := maxCellHeight,
    borderColor := rgb 0 0 0,
    borderWidth :=
      match cell with
      | .styled o =>
        match o.borderWidth with
        | some b => b
        | none => opts.borderWidth
      | .plain _ => opts.borderWidth,
    color :=
      match cell with
      | .styled o =>
        match o.backgroundColor with
        | some c => c
        | none => rgb 1 1 1
      | .plain _ => rgb 1 1 1,
    fill := false }

/-- The body of the cell loop (lines 130-179) at index `j`. -/
def drawCell (fuel : Nat) (env : Env) (opts : Options) (page : Nat)
    (currentY totalHeight cellWidth maxCellHeight : ℚ) (j : Nat) (cell : Cell) :
    Except Fault (List DrawCall) :=
  let startX := opts.margin.left
  let cellStartX := startX + cellWidth * j
  let cellStartY := currentY - totalHeight
  match wrapValue fuel (cellValue cell) env.font (cellFontSize opts.fontSize cell)
      (cellWidth - opts.cellPadding.left - opts.cellPadding.right) with
  | .error e => .error e
  | .ok wrappedText =>
    .ok (⟨page, .rectangle (cellRect opts cell cellStartX cellStartY cellWidth maxCellHeight)⟩ ::
      drawLines env opts page cell cellStartX cellStartY cellWidth maxCellHeight 0 wrappedText)

/-- The cell loop of one row (lines 129-180), from index `j` on. -/
def drawCells (fuel : Nat) (env : Env) (opts : Options) (page : Nat)
    (currentY totalHeight cellWidth maxCellHeight : ℚ) :
    Nat → List Cell → Except Fault (List DrawCall)
  | _, [] => .ok []
  | j, cell :: rest =>
    match drawCell fuel env opts page currentY totalHeight cellWidth maxCellHeight j cell with
    | .error e => .error e
    | .ok calls =>
      match drawCells fuel env opts page currentY totalHeight cellWidth maxCellHeight (j + 1)
          rest with
      | .error e => .error e
      | .ok more => .ok (calls ++ more)

/-- The layout cursor: the current page, the current Y, and the number of
pages added so far by `newPage()`. -/
structure Cursor where
  currentPage : Nat
  currentY : ℚ
  pagesAdded : Nat
  deriving DecidableEq, Repr

/-- The page-break decision of lines 122-126. -/
def breakPage (env : Env) (opts : Options) (cur : Cursor) (totalHeight : ℚ) : Cursor :=
  if cur.currentY - totalHeight < opts.margin.bottom then
    { currentPage := cur.pagesAdded + 1,
      currentY := env.newPageHeight - opts.margin.top,
      pagesAdded := cur.pagesAdded + 1 }
  else cur

/-- The cursor after a row of height `h`: the page-break decision, then the
cursor moves down by `h`. The test and the subtraction are the code's, in
exact arithmetic; `rowLoop64` is the same loop in binary64. -/
def rowCursor (env : Env) (opts : Options) (cur : Cursor) (h : ℚ) : Cursor :=
  { breakPage env opts cur h with currentY := (breakPage env opts cur h).currentY - h }

/-- The body of the row loop (lines 116-183): the cursor after the row and the
draw calls of the row. The cell width and the left edges are the code's
expressions in exact arithmetic; `cellWidth64` and `cellStartX64` are the same
expressions in binary64. -/
def drawRow (fuel : Nat) (env : Env) (opts : Options) (cur : Cursor) (row : List Cell)
    (maxCellHeight : ℚ) : Except Fault (Cursor × List DrawCall) :=
  let numCells := row.length
  let cellWidth := usableWidth env opts / numCells
  let totalHeight := maxCellHeight
  let cur := breakPage env opts cur totalHeight
  match drawCells fuel env opts cur.currentPage cur.currentY totalHeight cellWidth
      maxCellHeight 0 row with
  | .error e => .error e
  | .ok calls => .ok ({ cur with currentY := cur.currentY - totalHeight }, calls)

/-- The row loop (lines 115-184) over the rows paired with their
pre-computed heights. -/
def drawRows (fuel : Nat) (env : Env) (opts : Options) :
    Cursor → List (List Cell × ℚ) → Except Fault (Cursor × List DrawCall)
  | cur, [] => .ok (cur, [])
  | cur, (row, h) :: rest =>
    match drawRow fuel env opts cur row h with
    | .error e => .error e
    | .ok (cur, calls) =>
      match drawRows fuel env opts cur rest with
      | .error e => .error e
      | .ok (cur, more) => .ok (cur, calls ++ more)

/-- What a call of `drawTable` leaves behind: the returned `lastPage` and
`endY`, the number of pages it added to the document and its draw calls in
order. -/
structure Output where
  lastPage : Nat
  endY : ℚ
  pagesAdded : Nat
  calls : List DrawCall
  deriving DecidableEq, Repr

/-- The method `drawTable(headers, rows, options)`. -/
def drawTable (fuel : Nat) (env : Env) (headers : List Str) (rows : List (List Cell))
    (opts : Options) : Except Fault Output :=
  let tableStartY := tableStartY opts headers
  let headerCalls := drawHeaders env opts headers.length tableStartY 0 headers
  match rowHeights fuel env opts rows with
  | .error e => .error e
  | .ok heights =>
    match drawRows fuel env opts ⟨0, tableStartY, 0⟩ (rows.zip heights) with
    | .error e => .error e
    | .ok (cur, rowCalls) =>
      .ok { lastPage := cur.currentPage, endY := cur.currentY, pagesAdded := cur.pagesAdded,
            calls := headerCalls ++ rowCalls }

/-! ## The variant that reuses the wrapped lines of the pre-pass

The spec allows a rewrite that keeps, for each (row, cell), the lines wrapped
in the height pre-pass and reuses them in the draw pass. The definitions below
are that variant, written after the spec's words next to the source's loops;
`drawTableCached` is compared with `drawTable`. -/

/-- The inner loop of the pre-pass in the caching variant: with the running
maximum it keeps the wrapped lines of each cell. -/
def cachedCellLoop (fuel : Nat) (env : Env) (opts : Options) (numCells : Nat) :
    List Cell → ℚ → Except Fault (ℚ × List (List Str))
  | [], maxCellHeight => .ok (maxCellHeight, [])
  | cell :: rest, maxCellHeight =>
    let cellWidth :=
      usableWidth env opts / numCells - opts.cellPadding.left - opts.cellPadding.right
    match wrapValue fuel (cellValue cell) env.font (cellFontSize opts.fontSize cell)
        cellWidth with
    | .error e => .error e
    | .ok wrappedText =>
      let h := wrappedText.length * cellFontSize opts.fontSize cell
        + opts.cellPadding.top + opts.cellPadding.bottom
      match cachedCellLoop fuel env opts numCells rest
          (if h > maxCellHeight then h else maxCellHeight) with
      | .error e => .error e
      | .ok (m, cache) => .ok (m, wrappedText :: cache)

/-- The pre-pass of the caching variant: for each row its height and the
wrapped lines of its cells. -/
def cachedPrePass (fuel : Nat) (env : Env) (opts : Options) :
    List (List Cell) → Except Fault (List (ℚ × List (List Str)))
  | [] => .ok []
  | row :: rest =>
    match cachedCellLoop fuel env opts row.length row 0 with
    | .error e => .error e
    | .ok rc =>
      match cachedPrePass fuel env opts rest with
      | .error e => .error e
      | .ok rcs => .ok (rc :: rcs)

/-- The cell loop of the caching variant: the rectangle of each cell and the
texts of its cached lines. -/
def drawCellsCached (env : Env) (opts : Options) (page : Nat)
    (currentY totalHeight cellWidth maxCellHeight : ℚ) :
    Nat → List Cell → List (List Str) → List DrawCall
  | j, cell :: rest, wrappedText :: cache =>
    (⟨page, .rectangle (cellRect opts cell (opts.margin.left + cellWidth * j)
        (currentY - totalHeight) cellWidth maxCellHeight)⟩ ::
      drawLines env opts page cell (opts.margin.left + cellWidth * j)
        (currentY - totalHeight) cellWidth maxCellHeight 0 wrappedText) ++
      drawCellsCached env opts page currentY totalHeight cellWidth maxCellHeight (j + 1)
        rest cache
  | _, _, _ => []

/-- The body of the row loop in the caching variant. -/
def drawRowCached (env : Env) (opts : Options) (cur : Cursor) (row : List Cell)
    (rc : ℚ × List (List Str)) : Cursor × List DrawCall :=
  let numCells := row.length
  let cellWidth := usableWidth env opts / numCells
  let maxCellHeight := rc.1
  let totalHeight := maxCellHeight
  let cur := breakPage env opts cur totalHeight
  ({ cur with currentY := cur.currentY - totalHeight },
    drawCellsCached env opts cur.currentPage cur.currentY totalHeight cellWidth maxCellHeight
      0 row rc.2)

/-- The row loop of the caching variant. -/
def drawRowsCached (env : Env) (opts : Options) :
    Cursor → List (List Cell × (ℚ × List (List Str))) → Cursor × List DrawCall
  | cur, [] => (cur, [])
  | cur, (row, rc) :: rest =>
    let r := drawRowCached env opts cur row rc
    let r' := drawRowsCached env opts r.1 rest
    (r'.1, r.2 ++ r'.2)

/-- The caching variant of `drawTable`. -/
def drawTableCached (fuel : Nat) (env : Env) (headers : List Str) (rows : List (List Cell))
    (opts : Options) : Except Fault Output :=
  let tableStartY := tableStartY opts headers
  let headerCalls := drawHeaders env opts headers.length tableStartY 0 headers
  match cachedPrePass fuel env opts rows with
  | .error e => .error e
  | .ok cache =>
    let r := drawRowsCached env opts ⟨0, tableStartY, 0⟩ (rows.zip cache)
    .ok { lastPage := r.1.currentPage, endY := r.1.currentY, pagesAdded := r.1.pagesAdded,
          calls := headerCalls ++ r.2 }

/-- The rectangles among a list of draw calls, in order. -/
def rectangles : List DrawCall → List RectArgs
  | [] => []
  | ⟨_, .rectangle a⟩ :: rest => a :: rectangles rest
  | ⟨_, .text _⟩ :: rest => rectangles rest

/-- The text draws among a list of draw calls, in order. -/
def texts : List DrawCall → List TextArgs
  | [] => []
  | ⟨_, .text a⟩ :: rest => a :: texts rest
  | ⟨_, .rectangle _⟩ :: rest => texts rest

/-- The options of lines 13-30 when the caller passes none; the tests pass the
same values. -/
def defaultOptions : Options := {}

/-- A test setting: the fixed-pitch font on a 595.28 x 841.89 page, in a
document whose added pages are 841.89 high. -/
def a4Env : Env := ⟨monoFont, 59528 / 100, 84189 / 100, 84189 / 100⟩

/-- The headers of the tests. -/
def testHeaders : List Str := ["Header 1".toList, "Header 2".toList]

/-- The hundred rows of the pagination tests. -/
def testRows : List (List Cell) :=
  List.replicate 100 [.plain "Long text 1".toList, .plain "Long text 2".toList]

/-- The `fontSize` override of a cell, if it has one: the `fontSize` property
of an object cell. -/
def fontSizeOverride : Cell → Option ℚ
  | .plain _ => none
  | .styled o => o.fontSize

/-- A narrow test setting: the character-counting font on a page 130 wide, so
that two columns under the default options have a content width of 5. -/
def narrowEnv : Env := ⟨countFont, 130, 100, 100⟩

/-! ## The code's arithmetic: IEEE 754 binary64

A JavaScript number is a binary64 float: a decimal literal is read as the
nearest binary64 number, and each of `+`, `-`, `*`, `/` returns the exact
result rounded to the nearest binary64 number, a tie going to the even
significand. `round64` is that rounding on the rationals. The exponent range
is not bounded here: overflow and subnormal numbers are left out, and the
values of a page layout are far from both. -/

/-- The number of halvings that bring `n` below 2, within `fuel` steps; with
`fuel = n` this is the position of the leading bit of `n`. -/
def halvings : ℕ → ℕ → ℕ
  | 0, _ => 0
  | fuel + 1, n => if n < 2 then 0 else halvings fuel (n / 2) + 1

/-- The power `2 ^ e` for an integer exponent `e`. -/
def pow2 : ℤ → ℚ
  | .ofNat n => ((2 ^ n : ℕ) : ℚ)
  | .negSucc n => 1 / ((2 ^ (n + 1) : ℕ) : ℚ)

/-- The integer `k` with `2 ^ k ≤ q < 2 ^ (k + 1)`, for `q > 0`. -/
def ilog2 (q : ℚ) : ℤ :=
  let k : ℤ := (halvings q.num.natAbs q.num.natAbs : ℤ) - (halvings q.den q.den : ℤ)
  if pow2 k ≤ q then k else k - 1

/-- The nearest integer, a tie going to the even one. -/
def roundHalfEven (q : ℚ) : ℤ :=
  let f := Rat.floor q
  let r := q - f
  if r < 1 / 2 then f
  else if 1 / 2 < r then f + 1
  else if f % 2 = 0 then f else f + 1

/-- The nearest binary64 number: a significand of 53 bits, a tie going to the
even significand. -/
def round64 (q : ℚ) : ℚ :=
  if q = 0 then 0
  else
    let e := ilog2 |q| - 52
    (roundHalfEven (q / pow2 e) : ℚ) * pow2 e

/-- The sum `a + b` of two numbers as the code computes it. -/
def fadd (a b : ℚ) : ℚ := round64 (a + b)

/-- The difference `a - b` as the code computes it. -/
def fsub (a b : ℚ) : ℚ := round64 (a - b)

/-- The product `a * b` as the code computes it. -/
def fmul (a b : ℚ) : ℚ := round64 (a * b)

/-- The quotient `a / b` as the code computes it, for `b` not zero. -/
def fdiv (a b : ℚ) : ℚ := round64 (a / b)

/-- The value `cellWidth` of lines 59 and 118 in binary64:
`(endX - startX) / n` with `endX = width - margin.right` (line 48) and
`startX = margin.left` (line 47). -/
def cellWidth64 (width marginLeft marginRight : ℚ) (n : ℕ) : ℚ :=
  fdiv (fsub (fsub width marginRight) marginLeft) n

/-- The value `cellStartX` of lines 60 and 131 in binary64:
`startX + cellWidth * j`. -/
def cellStartX64 (marginLeft cellWidth : ℚ) (j : ℕ) : ℚ :=
  fadd marginLeft (fmul cellWidth j)

/-- The value `cellHeight` of line 101 in binary64:
`wrappedText.length * fontSize + cellPadding.top + cellPadding.bottom`. -/
def cellHeight64 (lineCount : ℕ) (fontSize paddingTop paddingBottom : ℚ) : ℚ :=
  fadd (fadd (fmul lineCount fontSize) paddingTop) paddingBottom

/-- The cursor of the row loop in binary64, over the pre-computed heights: the
test of line 122, the reset of line 124 and the update of line 183, on the
pair of `currentY` and the number of pages added. -/
def rowLoop64 (marginBottom marginTop newPageHeight : ℚ) : ℚ × ℕ → List ℚ → ℚ × ℕ
  | st, [] => st
  | (currentY, pages), totalHeight :: rest =>
    if fsub currentY totalHeight < marginBottom then
      rowLoop64 marginBottom marginTop newPageHeight
        (fsub (fsub newPageHeight marginTop) totalHeight, pages + 1) rest
    else
      rowLoop64 marginBottom marginTop newPageHeight
        (fsub currentY totalHeight, pages) rest

/-- The width 595.28 of the test page as the code holds it. -/
def pageWidth64 : ℚ := round64 (59528 / 100)

/-! ## The character-splitting loop -/

/-- When the first character of `wordPart` alone measures more than `maxWidth`,
the loop at `startIndex = 0` pushes an empty line, leaves `wordPart` as it is
and never exits: no budget is enough. -/
theorem splitLoop_stuck (font : Font) (S W : ℚ) (wordPart : Str)
    (h0 : 0 < wordPart.length)
    (hw : ¬ font.widthOfTextAtSize (wordPart.take 1) S ≤ W) :
    ∀ (fuel : Nat) (lines : List Str),
      splitLoop font S W fuel wordPart 0 lines = .error .outOfFuel := by
  intro fuel
  induction fuel with
  | zero => intro lines; simp [splitLoop, h0]
  | succ n ih =>
    intro lines
    have hw' : ¬ font.widthOfTextAtSize (List.take (0 + 1) wordPart) S ≤ W := by simpa using hw
    simp only [splitLoop, h0, if_true, hw', if_false, List.drop_zero]
    exact ih _

/-- What the loop has done when it exits: it has appended non-empty pieces
that each fit, and the pieces followed by the remainder spell the word. -/
theorem splitLoop_ok (font : Font) (S W : ℚ) :
    ∀ (fuel : Nat) (wordPart : Str) (k : Nat) (lines : List Str) (wp : Str) (out : List Str),
      splitLoop font S W fuel wordPart k lines = .ok (wp, out) →
      k ≤ wordPart.length →
      (k = 0 ∨ font.widthOfTextAtSize (wordPart.take k) S ≤ W) →
      ∃ pieces : List Str, out = lines ++ pieces ∧
        (∀ p ∈ pieces, p ≠ [] ∧ font.widthOfTextAtSize p S ≤ W) ∧
        pieces.flatten ++ wp = wordPart ∧
        (wp = [] ∨ font.widthOfTextAtSize wp S ≤ W) := by
  intro fuel
  induction fuel with
  | zero =>
    intro wordPart k lines wp out h hk hinv
    simp only [splitLoop] at h
    split at h
    · cases h
    · rename_i hlt
      simp only [Except.ok.injEq, Prod.mk.injEq] at h
      obtain ⟨rfl, rfl⟩ := h
      have hk' : k = wordPart.length := by omega
      refine ⟨[], by simp, by simp, by simp, ?_⟩
      rcases hinv with h0 | hfit
      · left; apply List.eq_nil_of_length_eq_zero; omega
      · right; rw [hk', List.take_length] at hfit; exact hfit
  | succ n ih =>
    intro wordPart k lines wp out h hk hinv
    simp only [splitLoop] at h
    split at h
    · rename_i hlt
      split at h
      · rename_i hfit
        exact ih wordPart (k + 1) lines wp out h (by omega) (Or.inr hfit)
      · rename_i hnofit
        rcases Nat.eq_zero_or_pos k with hk0 | hkpos
        · subst hk0
          rw [List.drop_zero, splitLoop_stuck font S W wordPart hlt (by simpa using hnofit)] at h
          cases h
        · have hfitk : font.widthOfTextAtSize (wordPart.take k) S ≤ W := by
            rcases hinv with h0 | hf
            · omega
            · exact hf
          obtain ⟨pieces, hout, hall, hjoin, hwp⟩ :=
            ih (wordPart.drop k) 0 (lines ++ [wordPart.take k]) wp out h (by simp) (Or.inl rfl)
          refine ⟨wordPart.take k :: pieces, by simp [hout], ?_, ?_, hwp⟩
          · intro p hp
            rcases List.mem_cons.mp hp with rfl | hp
            · refine ⟨?_, hfitk⟩
              intro hnil
              have hlen := congrArg List.length hnil
              rw [List.length_take, List.length_nil] at hlen
              omega
            · exact hall p hp
          · simp only [List.flatten_cons, List.append_assoc, hjoin, List.take_append_drop]
    · rename_i hlt
      simp only [Except.ok.injEq, Prod.mk.injEq] at h
      obtain ⟨rfl, rfl⟩ := h
      have hk' : k = wordPart.length := by omega
      refine ⟨[], by simp, by simp, by simp, ?_⟩
      rcases hinv with h0 | hfit
      · left; apply List.eq_nil_of_length_eq_zero; omega
      · right; rw [hk', List.take_length] at hfit; exact hfit

/-- When every character of `wordPart` fits on its own, the loop exits within
`2 * wordPart.length - startIndex` iterations. -/
theorem splitLoop_returns (font : Font) (S W : ℚ) :
    ∀ (fuel : Nat) (wordPart : Str) (k : Nat) (lines : List Str),
      (∀ c ∈ wordPart, font.widthOfTextAtSize [c] S ≤ W) →
      k ≤ wordPart.length → 2 * wordPart.length - k ≤ fuel →
      ∃ r, splitLoop font S W fuel wordPart k lines = .ok r := by
  intro fuel
  induction fuel with
  | zero =>
    intro wordPart k lines _ hk hfuel
    have hnot : ¬ k < wordPart.length := by omega
    exact ⟨(wordPart, lines), by simp only [splitLoop, if_neg hnot]⟩
  | succ n ih =>
    intro wordPart k lines hchars hk hfuel
    by_cases hlt : k < wordPart.length
    · by_cases hfit : font.widthOfTextAtSize (wordPart.take (k + 1)) S ≤ W
      · obtain ⟨r, hr⟩ := ih wordPart (k + 1) lines hchars (by omega) (by omega)
        exact ⟨r, by simp only [splitLoop, if_pos hlt, if_pos hfit, hr]⟩
      · have hkpos : 0 < k := by
          rcases Nat.eq_zero_or_pos k with h0 | hpos
          · exfalso
            subst h0
            apply hfit
            cases wordPart with
            | nil => simp at hlt
            | cons c cs => simpa using hchars c (List.mem_cons_self _ _)
          · exact hpos
        obtain ⟨r, hr⟩ := ih (wordPart.drop k) 0 (lines ++ [wordPart.take k])
          (fun c hc => hchars c (List.mem_of_mem_drop hc)) (Nat.zero_le _)
          (by rw [List.length_drop]; omega)
        exact ⟨r, by simp only [splitLoop, if_pos hlt, if_neg hfit, hr]⟩
    · exact ⟨(wordPart, lines), by simp only [splitLoop, if_neg hlt]⟩

/-- One pass of the word loop returns when every character of the word fits
on its own and the budget is twice the length of the word. -/
theorem wordStep_returns (font : Font) (S W : ℚ) (fuel : Nat) (st : List Str × Str) (w : Str)
    (hchars : ∀ c ∈ w, font.widthOfTextAtSize [c] S ≤ W) (hfuel : 2 * w.length ≤ fuel) :
    ∃ st', wordStep font S W fuel st w = .ok st' := by
  simp only [wordStep]
  split
  · exact ⟨_, rfl⟩
  · split
    · exact ⟨_, rfl⟩
    · obtain ⟨r, hr⟩ := splitLoop_returns font S W fuel w 0
        (if st.2 ≠ [] then st.1 ++ [st.2] else st.1) hchars (Nat.zero_le _) (by omega)
      rw [hr]
      exact ⟨_, rfl⟩

/-- The word loop returns under the same conditions on each word. -/
theorem wordLoop_returns (font : Font) (S W : ℚ) (fuel : Nat) :
    ∀ (ws : List Str) (st : List Str × Str),
      (∀ w ∈ ws, (∀ c ∈ w, font.widthOfTextAtSize [c] S ≤ W) ∧ 2 * w.length ≤ fuel) →
      ∃ st', wordLoop font S W fuel ws st = .ok st' := by
  intro ws
  induction ws with
  | nil => intro st _; exact ⟨st, rfl⟩
  | cons w ws ih =>
    intro st hws
    obtain ⟨st1, h1⟩ := wordStep_returns font S W fuel st w
      (hws w (List.mem_cons_self _ _)).1 (hws w (List.mem_cons_self _ _)).2
    obtain ⟨st2, h2⟩ := ih st1 (fun v hv => hws v (List.mem_cons_of_mem _ hv))
    exact ⟨st2, by simp only [wordLoop, h1, h2]⟩

/-- A word of a text is no longer than the text and made of its characters
other than the space. -/
theorem splitOn_mem :
    ∀ (T w : Str), w ∈ T.splitOn ' ' →
      w.length ≤ T.length ∧ ∀ c ∈ w, c ∈ T ∧ c ≠ ' ' := by
  intro T
  induction T with
  | nil =>
    intro w hw
    simp only [List.splitOn_nil, List.mem_singleton] at hw
    subst hw
    simp
  | cons a as ih =>
    intro w hw
    have hne := List.splitOnP_ne_nil (· == ' ') as
    simp only [List.splitOn, List.splitOnP_cons] at hw ih
    by_cases ha : a = ' '
    · simp only [ha, beq_self_eq_true, if_true, List.mem_cons] at hw
      rcases hw with rfl | hw
      · simp
      · obtain ⟨hlen, hch⟩ := ih w hw
        exact ⟨by simp only [List.length_cons]; omega,
          fun c hc => ⟨List.mem_cons_of_mem _ (hch c hc).1, (hch c hc).2⟩⟩
    · simp only [beq_iff_eq, ha, if_false] at hw
      cases hsp : List.splitOnP (· == ' ') as with
      | nil => exact absurd hsp hne
      | cons v vs =>
        rw [hsp] at hw ih
        simp only [List.modifyHead_cons, List.mem_cons] at hw
        rcases hw with rfl | hw
        · obtain ⟨hlen, hch⟩ := ih v (List.mem_cons_self _ _)
          refine ⟨by simp only [List.length_cons]; omega, ?_⟩
          intro c hc
          rcases List.mem_cons.mp hc with rfl | hc
          · exact ⟨List.mem_cons_self _ _, ha⟩
          · exact ⟨List.mem_cons_of_mem _ (hch c hc).1, (hch c hc).2⟩
        · obtain ⟨hlen, hch⟩ := ih w (List.mem_cons_of_mem _ hw)
          exact ⟨by simp only [List.length_cons]; omega,
            fun c hc => ⟨List.mem_cons_of_mem _ (hch c hc).1, (hch c hc).2⟩⟩

/-- The call `wrapTextIntoLines` returns when every character of the text
other than the space fits on its own and the budget of the splitting loop is
twice the length of the text. -/
theorem wrapTextIntoLines_returns (fuel : Nat) (text : Str) (font : Font) (S W : ℚ)
    (hchars : ∀ c ∈ text, c ≠ ' ' → font.widthOfTextAtSize [c] S ≤ W)
    (hfuel : 2 * text.length ≤ fuel) :
    ∃ lines, wrapTextIntoLines fuel text font S W = .ok lines := by
  obtain ⟨st, hst⟩ := wordLoop_returns font S W fuel (text.splitOn ' ') ([], []) (by
    intro w hw
    obtain ⟨hlen, hch⟩ := splitOn_mem text w hw
    exact ⟨fun c hc => hchars c (hch c hc).1 (hch c hc).2, by omega⟩)
  obtain ⟨lines, cur⟩ := st
  exact ⟨if cur ≠ [] then lines ++ [cur] else lines, by simp only [wrapTextIntoLines, hst]⟩

/-! ## The word loop: every line is non-empty and fits -/

/-- One pass of the word loop keeps: every finished line is non-empty and
measures at most `maxWidth`, and so does the accumulator unless it is empty. -/
theorem wordStep_fits (font : Font) (S W : ℚ) (fuel : Nat) (st st' : List Str × Str) (w : Str)
    (h : wordStep font S W fuel st w = .ok st')
    (hl : ∀ l ∈ st.1, l ≠ [] ∧ font.widthOfTextAtSize l S ≤ W)
    (hc : st.2 = [] ∨ font.widthOfTextAtSize st.2 S ≤ W) :
    (∀ l ∈ st'.1, l ≠ [] ∧ font.widthOfTextAtSize l S ≤ W) ∧
      (st'.2 = [] ∨ font.widthOfTextAtSize st'.2 S ≤ W) := by
  obtain ⟨lines, cur⟩ := st
  simp only at hl hc
  have hflush : ∀ l ∈ (if cur ≠ [] then lines ++ [cur] else lines),
      l ≠ [] ∧ font.widthOfTextAtSize l S ≤ W := by
    intro l hmem
    split at hmem
    · rename_i hne
      rcases List.mem_append.mp hmem with hm | hm
      · exact hl l hm
      · rw [List.mem_singleton] at hm
        subst hm
        exact ⟨hne, hc.resolve_left hne⟩
    · exact hl l hmem
  simp only [wordStep] at h
  split at h
  · rename_i happ
    simp only [Except.ok.injEq] at h
    subst h
    exact ⟨hl, Or.inr happ.2⟩
  · split at h
    · rename_i hfit
      simp only [Except.ok.injEq] at h
      subst h
      exact ⟨hflush, Or.inr hfit⟩
    · split at h
      · cases h
      · rename_i wp out hsplit
        simp only [Except.ok.injEq] at h
        subst h
        obtain ⟨pieces, hout, hall, -, hwp⟩ :=
          splitLoop_ok font S W fuel w 0 _ wp out hsplit (Nat.zero_le _) (Or.inl rfl)
        refine ⟨?_, Or.inl rfl⟩
        have hbase : ∀ l ∈ out, l ≠ [] ∧ font.widthOfTextAtSize l S ≤ W := by
          intro l hmem
          rw [hout] at hmem
          rcases List.mem_append.mp hmem with hm | hm
          · exact hflush l hm
          · exact hall l hm
        intro l hmem
        split at hmem
        · rename_i hne
          rcases List.mem_append.mp hmem with hm | hm
          · exact hbase l hm
          · rw [List.mem_singleton] at hm
            subst hm
            exact ⟨hne, hwp.resolve_left hne⟩
        · exact hbase l hmem

/-- The word loop keeps the same property over any list of words. -/
theorem wordLoop_fits (font : Font) (S W : ℚ) (fuel : Nat) :
    ∀ (ws : List Str) (st st' : List Str × Str),
      wordLoop font S W fuel ws st = .ok st' →
      (∀ l ∈ st.1, l ≠ [] ∧ font.widthOfTextAtSize l S ≤ W) →
      (st.2 = [] ∨ font.widthOfTextAtSize st.2 S ≤ W) →
      (∀ l ∈ st'.1, l ≠ [] ∧ font.widthOfTextAtSize l S ≤ W) ∧
        (st'.2 = [] ∨ font.widthOfTextAtSize st'.2 S ≤ W) := by
  intro ws
  induction ws with
  | nil =>
    intro st st' h hl hc
    simp only [wordLoop, Except.ok.injEq] at h
    subst h
    exact ⟨hl, hc⟩
  | cons w ws ih =>
    intro st st' h hl hc
    simp only [wordLoop] at h
    split at h
    · cases h
    · rename_i st1 hstep
      obtain ⟨hl1, hc1⟩ := wordStep_fits font S W fuel st st1 w hstep hl hc
      exact ih st1 st' h hl1 hc1

/-- Every line `wrapTextIntoLines` returns is non-empty and measures at most
`maxWidth`. -/
theorem wrapTextIntoLines_fits (fuel : Nat) (text : Str) (font : Font) (S W : ℚ)
    (lines : List Str) (h : wrapTextIntoLines fuel text font S W = .ok lines) :
    ∀ l ∈ lines, l ≠ [] ∧ font.widthOfTextAtSize l S ≤ W := by
  simp only [wrapTextIntoLines] at h
  split at h
  · cases h
  · rename_i out cur hloop
    simp only [Except.ok.injEq] at h
    subst h
    obtain ⟨hl, hc⟩ := wordLoop_fits font S W fuel _ ([], []) (out, cur) hloop
      (by simp) (Or.inl rfl)
    intro l hmem
    split at hmem
    · rename_i hne
      rcases List.mem_append.mp hmem with hm | hm
      · exact hl l hm
      · rw [List.mem_singleton] at hm
        subst hm
        exact ⟨hne, hc.resolve_left hne⟩
    · exact hl l hmem

/-! ## Joining the lines back -/

/-- Joining with a separator, one more item at the end. -/
theorem intercalate_snoc (sep : Str) (L : List Str) (x : Str) :
    sep.intercalate (L ++ [x]) = if L = [] then x else sep.intercalate L ++ sep ++ x := by
  induction L with
  | nil => simp [List.intercalate]
  | cons a L ih =>
    cases L with
    | nil => simp [List.intercalate]
    | cons b L =>
      simp only [List.intercalate, List.cons_append, List.intersperse_cons₂, List.flatten_cons,
        List.append_assoc, reduceCtorEq, if_false] at ih ⊢
      rw [ih]

/-- One pass of the word loop on a non-empty word that fits. -/
theorem wordStep_join (font : Font) (S W : ℚ) (fuel : Nat) (done : List Str)
    (st : List Str × Str) (w : Str) (hinv : JoinInv done st) (hne : w ≠ [])
    (hfit : font.widthOfTextAtSize w S ≤ W) :
    ∃ st', wordStep font S W fuel st w = .ok st' ∧ JoinInv (done ++ [w]) st' := by
  obtain ⟨lines, cur⟩ := st
  rcases hinv with ⟨hd, hst⟩ | ⟨hd, hcur, hjoin⟩
  · simp only [Prod.mk.injEq] at hst
    obtain ⟨rfl, rfl⟩ := hst
    subst hd
    refine ⟨([], w), ?_, Or.inr ⟨by simp, hne, rfl⟩⟩
    simp [wordStep, hfit]
  · simp only at hcur hjoin
    by_cases happ : font.widthOfTextAtSize (cur ++ [' '] ++ w) S ≤ W
    · refine ⟨(lines, cur ++ [' '] ++ w), ?_, Or.inr ⟨by simp, by simp, ?_⟩⟩
      · simp only [wordStep]
        rw [if_pos ⟨hcur, happ⟩]
      · simp only
        rw [intercalate_snoc _ done w, if_neg hd, ← hjoin, intercalate_snoc, intercalate_snoc]
        by_cases hl : lines = []
        · simp [hl]
        · simp [hl, List.append_assoc]
    · refine ⟨(lines ++ [cur], w), ?_, Or.inr ⟨by simp, hne, ?_⟩⟩
      · simp only [wordStep]
        rw [if_neg (fun h => happ h.2), if_pos hfit, if_pos hcur]
      · simp only
        rw [intercalate_snoc _ done w, if_neg hd, ← hjoin, intercalate_snoc _ (lines ++ [cur]) w,
          if_neg (by simp)]

/-- The word loop on non-empty words that all fit never enters the
character-splitting loop and keeps the lines joining back to the words. -/
theorem wordLoop_join (font : Font) (S W : ℚ) (fuel : Nat) :
    ∀ (ws done : List Str) (st : List Str × Str), JoinInv done st →
      (∀ w ∈ ws, w ≠ [] ∧ font.widthOfTextAtSize w S ≤ W) →
      ∃ st', wordLoop font S W fuel ws st = .ok st' ∧ JoinInv (done ++ ws) st' := by
  intro ws
  induction ws with
  | nil =>
    intro done st hinv _
    exact ⟨st, rfl, by simpa using hinv⟩
  | cons w ws ih =>
    intro done st hinv hws
    obtain ⟨st1, hstep, hinv1⟩ :=
      wordStep_join font S W fuel done st w hinv (hws w (List.mem_cons_self _ _)).1
        (hws w (List.mem_cons_self _ _)).2
    obtain ⟨st2, hloop, hinv2⟩ :=
      ih (done ++ [w]) st1 hinv1 (fun v hv => hws v (List.mem_cons_of_mem _ hv))
    refine ⟨st2, ?_, by simpa using hinv2⟩
    simp only [wordLoop, hstep, hloop]

/-- An empty word after the first one comes from a trailing space or from two
spaces in a row. -/
theorem splitOn_tail_nil_mem :
    ∀ T : Str, [] ∈ (T.splitOn ' ').tail →
      T.getLast? = some ' ' ∨ [' ', ' '] <:+: T := by
  intro T
  induction T with
  | nil => intro h; simp at h
  | cons c cs ih =>
    intro h
    have hne := List.splitOnP_ne_nil (· == ' ') cs
    simp only [List.splitOn, List.splitOnP_cons] at h ih
    by_cases hc : c = ' '
    · subst hc
      simp only [beq_self_eq_true, if_true, List.tail_cons] at h
      cases cs with
      | nil => left; rfl
      | cons d ds =>
        by_cases hd : d = ' '
        · subst hd
          right
          exact ⟨[], ds, rfl⟩
        · simp only [List.splitOnP_cons, beq_iff_eq, hd, if_false] at h
          have hne' := List.splitOnP_ne_nil (· == ' ') ds
          have htail : [] ∈ (List.splitOnP (· == ' ') (d :: ds)).tail := by
            simp only [List.splitOnP_cons, beq_iff_eq, hd, if_false]
            cases hsp : List.splitOnP (· == ' ') ds with
            | nil => exact absurd hsp hne'
            | cons w ws =>
              rw [hsp] at h
              simp only [List.modifyHead_cons, List.mem_cons, List.tail_cons] at h ⊢
              rcases h with h | h
              · cases h
              · exact h
          rcases ih htail with hlast | hinf
          · left
            rw [List.getLast?_cons_cons]
            exact hlast
          · right
            obtain ⟨a, b, hab⟩ := hinf
            exact ⟨' ' :: a, b, by simp [← hab]⟩
    · simp only [beq_iff_eq, hc, if_false] at h
      have htail : [] ∈ (List.splitOnP (· == ' ') cs).tail := by
        cases hsp : List.splitOnP (· == ' ') cs with
        | nil => exact absurd hsp hne
        | cons w ws =>
          rw [hsp] at h
          simpa using h
      rcases ih htail with hlast | hinf
      · left
        cases cs with
        | nil => simp at hlast
        | cons d ds =>
          rw [List.getLast?_cons_cons]
          exact hlast
      · right
        obtain ⟨a, b, hab⟩ := hinf
        exact ⟨c :: a, b, by simp [← hab]⟩

/-- A non-empty text with no leading space, no trailing space and no two
spaces in a row has no empty word. -/
theorem splitOn_no_empty_word (T : Str) (hT : T ≠ []) (hl : T.head? ≠ some ' ')
    (ht : T.getLast? ≠ some ' ') (h2 : ¬ [' ', ' '] <:+: T) :
    ∀ w ∈ T.splitOn ' ', w ≠ [] := by
  intro w hw hnil
  subst hnil
  cases T with
  | nil => exact hT rfl
  | cons c cs =>
    have hc : c ≠ ' ' := by
      intro h
      apply hl
      simp [h]
    have htail : [] ∈ ((c :: cs).splitOn ' ').tail := by
      have hne := List.splitOnP_ne_nil (· == ' ') cs
      simp only [List.splitOn, List.splitOnP_cons, beq_iff_eq, hc, if_false] at hw ⊢
      cases hsp : List.splitOnP (· == ' ') cs with
      | nil => exact absurd hsp hne
      | cons v vs =>
        rw [hsp] at hw
        simpa using hw
    rcases splitOn_tail_nil_mem (c :: cs) htail with h | h
    · exact ht h
    · exact h2 h

/-! ## Claims on wrapTextIntoLines -/

/-- C1 (the code does not meet it): for the text `a`, a font that measures it
`1` wide and `maxWidth = 0`, an iteration of the character-splitting loop
pushes an empty line and consumes nothing, leaving `wordPart` and `startIndex`
as they were; so whatever the budget of iterations, `wrapTextIntoLines` does
not return. -/
theorem wrapTextIntoLines_wide_char_never_returns :
    (∀ (fuel : Nat) (lines : List Str),
      splitLoop countFont 1 0 (fuel + 1) ['a'] 0 lines
        = splitLoop countFont 1 0 fuel ['a'] 0 (lines ++ [[]])) ∧
    (∀ fuel : Nat, wrapTextIntoLines fuel ['a'] countFont 1 0 = .error .outOfFuel) := by
  have hw : ¬ countFont.widthOfTextAtSize ['a'] 1 ≤ 0 := by
    simp [countFont]
  refine ⟨?_, ?_⟩
  · intro fuel lines
    have hw' : ¬ countFont.widthOfTextAtSize (List.take (0 + 1) ['a']) 1 ≤ 0 := by
      simpa using hw
    simp only [splitLoop, List.length_singleton, Nat.lt_one_iff, if_true, hw', if_false,
      List.drop_zero, List.take_zero]
  · intro fuel
    have hsplit : (['a'] : Str).splitOn ' ' = [['a']] := by decide
    have hstuck := splitLoop_stuck countFont 1 0 ['a'] (by simp) (by simpa using hw) fuel []
    unfold wrapTextIntoLines
    rw [hsplit]
    simp only [wordLoop, wordStep]
    rw [if_neg (fun h => h.1 rfl), if_neg hw]
    simp only [ne_eq, not_true_eq_false, if_false]
    rw [hstuck]

/-- C2: every line `wrapTextIntoLines` returns measures at most `W`, or is a
single character that measures more than `W`; this holds for every font, size
and width. -/
theorem wrapTextIntoLines_line_width (fuel : Nat) (text : Str) (font : Font) (S W : ℚ)
    (lines : List Str) (h : wrapTextIntoLines fuel text font S W = .ok lines) :
    ∀ l ∈ lines, font.widthOfTextAtSize l S ≤ W ∨
      (l.length = 1 ∧ W < font.widthOfTextAtSize l S) :=
  fun l hl => Or.inl (wrapTextIntoLines_fits fuel text font S W lines h l hl).2

/-- C2 at `abcde fg` with three characters to a line. -/
theorem wrapTextIntoLines_line_width_witness :
    wrapTextIntoLines 20 "abcde fg".toList countFont 1 3
        = .ok ["abc".toList, "de".toList, "fg".toList] ∧
      ∀ l ∈ ["abc".toList, "de".toList, "fg".toList],
        countFont.widthOfTextAtSize l 1 ≤ 3 ∨
          (l.length = 1 ∧ 3 < countFont.widthOfTextAtSize l 1) :=
  ⟨by decide!, wrapTextIntoLines_line_width 20 "abcde fg".toList countFont 1 3 _ (by decide!)⟩

/-- C3 as stated fails: none of `abc`, ` a` and `a ` has two spaces in a row,
yet `abc` at width 2 is split into `ab` and `c`, which join to `ab c`; the
leading space of ` a` is dropped; and the trailing space of `a ` is dropped
when `a ` does not fit. -/
theorem wrapTextIntoLines_join_counterexample :
    (¬ [' ', ' '] <:+: "abc".toList ∧
      wrapTextIntoLines 20 "abc".toList countFont 1 2 = .ok ["ab".toList, "c".toList] ∧
      List.intercalate [' '] ["ab".toList, "c".toList] ≠ "abc".toList) ∧
    (¬ [' ', ' '] <:+: " a".toList ∧
      wrapTextIntoLines 20 " a".toList countFont 1 5 = .ok ["a".toList] ∧
      List.intercalate [' '] ["a".toList] ≠ " a".toList) ∧
    (¬ [' ', ' '] <:+: "a ".toList ∧
      wrapTextIntoLines 20 "a ".toList countFont 1 1 = .ok ["a".toList] ∧
      List.intercalate [' '] ["a".toList] ≠ "a ".toList) := by
  refine ⟨⟨?_, ?_, ?_⟩, ⟨?_, ?_, ?_⟩, ⟨?_, ?_, ?_⟩⟩ <;> decide!

/-- C3 (amended): when the text has no two spaces in a row, no leading and no
trailing space, and each of its words measures at most `W`, then
`wrapTextIntoLines` returns, whatever the budget, and joining its lines with
single spaces gives the text back. -/
theorem wrapTextIntoLines_join (fuel : Nat) (T : Str) (font : Font) (S W : ℚ)
    (h2 : ¬ [' ', ' '] <:+: T) (hl : T.head? ≠ some ' ') (ht : T.getLast? ≠ some ' ')
    (hw : ∀ w ∈ T.splitOn ' ', font.widthOfTextAtSize w S ≤ W) :
    ∃ lines, wrapTextIntoLines fuel T font S W = .ok lines ∧
      List.intercalate [' '] lines = T := by
  by_cases hT : T = []
  · subst hT
    refine ⟨[], ?_, rfl⟩
    have hsplit : ([] : Str).splitOn ' ' = [[]] := rfl
    unfold wrapTextIntoLines
    rw [hsplit]
    simp only [wordLoop, wordStep]
    rw [if_neg (fun h => h.1 rfl)]
    by_cases hfit : font.widthOfTextAtSize [] S ≤ W
    · rw [if_pos hfit]
      simp
    · rw [if_neg hfit]
      cases fuel <;> simp [splitLoop]
  · have hwords := splitOn_no_empty_word T hT hl ht h2
    obtain ⟨st, hloop, hinv⟩ :=
      wordLoop_join font S W fuel (T.splitOn ' ') [] ([], []) (Or.inl ⟨rfl, rfl⟩)
        (fun w hmem => ⟨hwords w hmem, hw w hmem⟩)
    obtain ⟨lines, cur⟩ := st
    rcases hinv with ⟨hd, -⟩ | ⟨-, hcur, hjoin⟩
    · exact absurd hd (by simpa using List.splitOnP_ne_nil (· == ' ') T)
    · simp only at hcur hjoin
      refine ⟨lines ++ [cur], ?_, ?_⟩
      · simp only [wrapTextIntoLines, hloop]
        rw [if_pos hcur]
      · rw [hjoin, List.nil_append, List.intercalate_splitOn]

/-- C3 (amended) at `hello world foo` with eleven characters to a line. -/
theorem wrapTextIntoLines_join_witness :
    ∃ lines, wrapTextIntoLines 0 "hello world foo".toList countFont 1 11 = .ok lines ∧
      List.intercalate [' '] lines = "hello world foo".toList :=
  wrapTextIntoLines_join 0 "hello world foo".toList countFont 1 11 (by decide!) (by decide!)
    (by decide!) (by decide!)

/-! ## The draw log of a cell and of a row -/

/-- The rectangles of two logs in a row. -/
theorem rectangles_append (a b : List DrawCall) :
    rectangles (a ++ b) = rectangles a ++ rectangles b := by
  induction a with
  | nil => rfl
  | cons c a ih =>
    obtain ⟨p, op⟩ := c
    cases op <;> simp [rectangles, ih]

/-- The texts of two logs in a row. -/
theorem texts_append (a b : List DrawCall) : texts (a ++ b) = texts a ++ texts b := by
  induction a with
  | nil => rfl
  | cons c a ih =>
    obtain ⟨p, op⟩ := c
    cases op <;> simp [texts, ih]

/-- The line loop of a cell draws texts only: one a line, in order, on the
given page, at the size of the cell and at `textX`. -/
theorem drawLines_spec (env : Env) (opts : Options) (page : Nat) (cell : Cell)
    (cellStartX cellStartY cellWidth maxCellHeight : ℚ) :
    ∀ (lines : List Str) (k : Nat),
      rectangles (drawLines env opts page cell cellStartX cellStartY cellWidth maxCellHeight
        k lines) = [] ∧
      (texts (drawLines env opts page cell cellStartX cellStartY cellWidth maxCellHeight
        k lines)).map (fun t => t.text) = lines ∧
      (∀ c ∈ drawLines env opts page cell cellStartX cellStartY cellWidth maxCellHeight
        k lines, c.page = page) ∧
      (∀ t ∈ texts (drawLines env opts page cell cellStartX cellStartY cellWidth maxCellHeight
        k lines), t.size = cellFontSize opts.fontSize cell ∧
          t.x = textX env opts cell cellStartX cellWidth t.text) := by
  intro lines
  induction lines with
  | nil => intro k; simp [drawLines, rectangles, texts]
  | cons line rest ih =>
    intro k
    obtain ⟨h1, h2, h3, h4⟩ := ih (k + 1)
    refine ⟨?_, ?_, ?_, ?_⟩
    · simpa [drawLines, drawLine, rectangles] using h1
    · simpa [drawLines, drawLine, texts] using h2
    · intro c hc
      simp only [drawLines, List.mem_cons] at hc
      rcases hc with rfl | hc
      · rfl
      · exact h3 c hc
    · intro t ht
      simp only [drawLines, drawLine, texts, List.mem_cons] at ht
      rcases ht with rfl | ht
      · exact ⟨rfl, rfl⟩
      · exact h4 t ht

/-- The header loop: two calls a header, all on the page of the call; the
rectangles are those of the indices in order and the texts are the headers. -/
theorem drawHeaders_spec (env : Env) (opts : Options) (numHeaders : Nat) (y : ℚ) :
    ∀ (headers : List Str) (i : Nat),
      rectangles (drawHeaders env opts numHeaders y i headers) =
        (List.range' i headers.length).map (headerRect env opts numHeaders y) ∧
      (texts (drawHeaders env opts numHeaders y i headers)).map (fun t => t.text) = headers ∧
      (drawHeaders env opts numHeaders y i headers).length = 2 * headers.length ∧
      (∀ c ∈ drawHeaders env opts numHeaders y i headers, c.page = 0) := by
  intro headers
  induction headers with
  | nil => intro i; simp [drawHeaders, rectangles, texts]
  | cons header rest ih =>
    intro i
    obtain ⟨h1, h2, h3, h4⟩ := ih (i + 1)
    refine ⟨?_, ?_, ?_, ?_⟩
    · simp only [drawHeaders, drawHeader, List.cons_append, List.nil_append, rectangles,
        List.append_eq, h1, List.length_cons, List.range'_succ, List.map_cons]
    · simp only [drawHeaders, drawHeader, List.cons_append, List.nil_append, rectangles, texts,
        List.append_eq, List.map_cons, h2]
    · simp only [drawHeaders, drawHeader, List.cons_append, List.nil_append, List.length_cons,
        h3]
      omega
    · intro c hc
      simp only [drawHeaders, drawHeader, List.cons_append, List.nil_append, List.mem_cons]
        at hc
      rcases hc with rfl | rfl | hc
      · rfl
      · rfl
      · exact h4 c hc

/-- When the pre-pass loop over the cells returns, every cell has wrapped, and
the result is at least the starting maximum. -/
theorem maxCellHeightLoop_ok (fuel : Nat) (env : Env) (opts : Options) (n : Nat) :
    ∀ (cells : List Cell) (m h : ℚ),
      maxCellHeightLoop fuel env opts n cells m = .ok h →
      (∀ cell ∈ cells, ∃ lines,
        wrapValue fuel (cellValue cell) env.font (cellFontSize opts.fontSize cell)
          (usableWidth env opts / n - opts.cellPadding.left - opts.cellPadding.right)
          = .ok lines) ∧ m ≤ h := by
  intro cells
  induction cells with
  | nil =>
    intro m h hok
    simp only [maxCellHeightLoop, Except.ok.injEq] at hok
    subst hok
    exact ⟨by simp, le_refl _⟩
  | cons cell rest ih =>
    intro m h hok
    simp only [maxCellHeightLoop] at hok
    split at hok
    · cases hok
    · rename_i ch hcell
      obtain ⟨hrest, hle⟩ := ih _ h hok
      refine ⟨?_, ?_⟩
      · intro c hc
        rcases List.mem_cons.mp hc with rfl | hc
        · simp only [cellHeight] at hcell
          split at hcell
          · cases hcell
          · rename_i lines hwrap
            exact ⟨lines, hwrap⟩
        · exact hrest c hc
      · split at hle
        · rename_i hgt
          exact le_trans (le_of_lt hgt) hle
        · exact hle

/-- The draw calls of one cell, once its text has wrapped. -/
theorem drawCell_ok (fuel : Nat) (env : Env) (opts : Options) (page : Nat)
    (currentY totalHeight cellWidth maxCellHeight : ℚ) (j : Nat) (cell : Cell)
    (lines : List Str)
    (hwrap : wrapValue fuel (cellValue cell) env.font (cellFontSize opts.fontSize cell)
      (cellWidth - opts.cellPadding.left - opts.cellPadding.right) = .ok lines) :
    drawCell fuel env opts page currentY totalHeight cellWidth maxCellHeight j cell =
      .ok (⟨page, .rectangle (cellRect opts cell (opts.margin.left + cellWidth * j)
          (currentY - totalHeight) cellWidth maxCellHeight)⟩ ::
        drawLines env opts page cell (opts.margin.left + cellWidth * j)
          (currentY - totalHeight) cellWidth maxCellHeight 0 lines) := by
  simp only [drawCell, hwrap]

/-- The cell loop of a row whose cells all wrap: it returns, every call goes
to the given page, and the rectangles are those of the cells in order. -/
theorem drawCells_ok (fuel : Nat) (env : Env) (opts : Options) (page : Nat)
    (currentY totalHeight cellWidth maxCellHeight : ℚ) :
    ∀ (row : List Cell) (j : Nat),
      (∀ cell ∈ row, ∃ lines,
        wrapValue fuel (cellValue cell) env.font (cellFontSize opts.fontSize cell)
          (cellWidth - opts.cellPadding.left - opts.cellPadding.right) = .ok lines) →
      ∃ calls,
        drawCells fuel env opts page currentY totalHeight cellWidth maxCellHeight j row
          = .ok calls ∧
        (∀ c ∈ calls, c.page = page) ∧
        rectangles calls = (row.enumFrom j).map (fun p =>
          cellRect opts p.2 (opts.margin.left + cellWidth * p.1) (currentY - totalHeight)
            cellWidth maxCellHeight) := by
  intro row
  induction row with
  | nil =>
    intro j _
    exact ⟨[], rfl, by simp, rfl⟩
  | cons cell rest ih =>
    intro j hw
    obtain ⟨lines, hwrap⟩ := hw cell (List.mem_cons_self _ _)
    obtain ⟨more, hmore, hpage, hrect⟩ := ih (j + 1) (fun c hc => hw c (List.mem_cons_of_mem _ hc))
    have hcell := drawCell_ok fuel env opts page currentY totalHeight cellWidth maxCellHeight
      j cell lines hwrap
    obtain ⟨hl1, -, hl3, -⟩ := drawLines_spec env opts page cell
      (opts.margin.left + cellWidth * j) (currentY - totalHeight) cellWidth maxCellHeight lines 0
    refine ⟨(⟨page, .rectangle (cellRect opts cell (opts.margin.left + cellWidth * j)
        (currentY - totalHeight) cellWidth maxCellHeight)⟩ ::
      drawLines env opts page cell (opts.margin.left + cellWidth * j)
        (currentY - totalHeight) cellWidth maxCellHeight 0 lines) ++ more, ?_, ?_, ?_⟩
    · simp only [drawCells, hcell, hmore]
    · intro c hc
      rcases List.mem_append.mp hc with hc | hc
      · rcases List.mem_cons.mp hc with rfl | hc
        · rfl
        · exact hl3 c hc
      · exact hpage c hc
    · rw [rectangles_append, hrect]
      simp only [List.enumFrom_cons, List.map_cons, rectangles, hl1, List.singleton_append]

/-- The `j`-th rectangle of a drawn row, read off the list of its
rectangles. -/
theorem cellRects_getElem (opts : Options) (row : List Cell) (x0 w y mh : ℚ) (j : Nat)
    (r : RectArgs)
    (hr : ((row.enumFrom 0).map (fun p =>
      cellRect opts p.2 (x0 + w * p.1) y w mh))[j]? = some r) :
    j < row.length ∧ ∃ cell, row[j]? = some cell ∧ r = cellRect opts cell (x0 + w * j) y w mh := by
  rw [List.getElem?_map, List.getElem?_enumFrom] at hr
  cases hcell : row[j]? with
  | none => rw [hcell] at hr; cases hr
  | some cell =>
    rw [hcell] at hr
    simp only [Option.map_some', zero_add, Option.some.injEq] at hr
    obtain ⟨hlt, -⟩ := List.getElem?_eq_some.mp hcell
    exact ⟨hlt, cell, rfl, hr.symm⟩

/-- A row whose pre-pass returned is drawn: `drawRow` returns, with every call
on the page chosen by the page-break decision and one rectangle a cell. -/
theorem drawRow_ok (fuel : Nat) (env : Env) (opts : Options) (cur : Cursor) (row : List Cell)
    (h0 h : ℚ) (hpre : rowHeight fuel env opts row = .ok h0) :
    ∃ calls,
      drawRow fuel env opts cur row h = .ok (rowCursor env opts cur h, calls) ∧
      (∀ c ∈ calls, c.page = (breakPage env opts cur h).currentPage) ∧
      rectangles calls = (row.enumFrom 0).map (fun p =>
        cellRect opts p.2 (opts.margin.left + usableWidth env opts / row.length * p.1)
          ((breakPage env opts cur h).currentY - h) (usableWidth env opts / row.length) h) := by
  obtain ⟨hw, -⟩ := maxCellHeightLoop_ok fuel env opts row.length row 0 h0 hpre
  obtain ⟨calls, hcalls, hpage, hrect⟩ :=
    drawCells_ok fuel env opts (breakPage env opts cur h).currentPage
      (breakPage env opts cur h).currentY h (usableWidth env opts / row.length) h row 0 hw
  refine ⟨calls, ?_, hpage, hrect⟩
  simp only [drawRow, hcalls, rowCursor]

/-! ## The row loop and the whole call -/

/-- When the pre-pass returns, it has one height for each row, each the
pre-computed height of its row. -/
theorem rowHeights_ok (fuel : Nat) (env : Env) (opts : Options) :
    ∀ (rows : List (List Cell)) (hs : List ℚ), rowHeights fuel env opts rows = .ok hs →
      List.Forall₂ (fun row h => rowHeight fuel env opts row = .ok h) rows hs := by
  intro rows
  induction rows with
  | nil =>
    intro hs hok
    simp only [rowHeights, Except.ok.injEq] at hok
    subst hok
    exact List.Forall₂.nil
  | cons row rest ih =>
    intro hs hok
    simp only [rowHeights] at hok
    split at hok
    · cases hok
    · rename_i h hrow
      split at hok
      · cases hok
      · rename_i hs' hrest
        simp only [Except.ok.injEq] at hok
        subst hok
        exact List.Forall₂.cons hrow (ih hs' hrest)

/-- A pre-computed row height is never negative: the maximum starts at `0`. -/
theorem rowHeight_nonneg (fuel : Nat) (env : Env) (opts : Options) (row : List Cell) (h : ℚ)
    (hok : rowHeight fuel env opts row = .ok h) : 0 ≤ h :=
  (maxCellHeightLoop_ok fuel env opts row.length row 0 h hok).2

/-- The row loop over rows whose pre-pass returned: it returns, and its cursor
is the page-break decision and step down, folded over the heights. -/
theorem drawRows_ok (fuel : Nat) (env : Env) (opts : Options) :
    ∀ (rows : List (List Cell)) (hs : List ℚ),
      List.Forall₂ (fun row h => rowHeight fuel env opts row = .ok h) rows hs →
      ∀ cur : Cursor, ∃ calls,
        drawRows fuel env opts cur (rows.zip hs)
          = .ok (hs.foldl (rowCursor env opts) cur, calls) := by
  intro rows hs hall
  induction hall with
  | nil => intro cur; exact ⟨[], rfl⟩
  | @cons row h rest hs' hrow _ ih =>
    intro cur
    obtain ⟨calls, hcalls, -, -⟩ := drawRow_ok fuel env opts cur row h h hrow
    obtain ⟨more, hmore⟩ := ih (rowCursor env opts cur h)
    refine ⟨calls ++ more, ?_⟩
    show drawRows fuel env opts cur ((row, h) :: rest.zip hs') = _
    simp only [drawRows, hcalls, hmore, List.foldl_cons]

/-- When the pre-pass returns, `drawTable` returns: the header calls, then the
calls of the rows, and the cursor folded over the pre-computed heights. -/
theorem drawTable_ok (fuel : Nat) (env : Env) (headers : List Str) (rows : List (List Cell))
    (opts : Options) (hs : List ℚ) (hpre : rowHeights fuel env opts rows = .ok hs) :
    ∃ rowCalls,
      drawTable fuel env headers rows opts = .ok
        { lastPage := (hs.foldl (rowCursor env opts) ⟨0, tableStartY opts headers, 0⟩).currentPage,
          endY := (hs.foldl (rowCursor env opts) ⟨0, tableStartY opts headers, 0⟩).currentY,
          pagesAdded :=
            (hs.foldl (rowCursor env opts) ⟨0, tableStartY opts headers, 0⟩).pagesAdded,
          calls := drawHeaders env opts headers.length (tableStartY opts headers) 0 headers
            ++ rowCalls } := by
  obtain ⟨rowCalls, hrows⟩ := drawRows_ok fuel env opts rows hs
    (rowHeights_ok fuel env opts rows hs hpre) ⟨0, tableStartY opts headers, 0⟩
  exact ⟨rowCalls, by simp only [drawTable, hpre, hrows]⟩

/-- Pages are only ever added, and a page is added exactly when, for some row,
the cursor reached by subtracting the heights up to and including that row,
one at a time, is below the bottom margin. -/
theorem foldl_rowCursor_pages (env : Env) (opts : Options) :
    ∀ (hs : List ℚ) (cur : Cursor),
      cur.pagesAdded ≤ (hs.foldl (rowCursor env opts) cur).pagesAdded ∧
      (cur.pagesAdded < (hs.foldl (rowCursor env opts) cur).pagesAdded ↔
        ∃ k, k < hs.length ∧
          (hs.take (k + 1)).foldl (fun y h => y - h) cur.currentY < opts.margin.bottom) := by
  intro hs
  induction hs with
  | nil => intro cur; exact ⟨le_refl _, by simp⟩
  | cons h rest ih =>
    intro cur
    obtain ⟨hmono, hiff⟩ := ih (rowCursor env opts cur h)
    simp only [List.foldl_cons]
    by_cases hbreak : cur.currentY - h < opts.margin.bottom
    · have hp : (rowCursor env opts cur h).pagesAdded = cur.pagesAdded + 1 := by
        simp [rowCursor, breakPage, hbreak]
      refine ⟨by omega, fun _ => ⟨0, by simp, ?_⟩, fun _ => by omega⟩
      simpa using hbreak
    · have hp : (rowCursor env opts cur h).pagesAdded = cur.pagesAdded := by
        simp [rowCursor, breakPage, hbreak]
      have hy : (rowCursor env opts cur h).currentY = cur.currentY - h := by
        simp [rowCursor, breakPage, hbreak]
      refine ⟨by omega, ?_⟩
      rw [← hp, hiff, hy]
      constructor
      · rintro ⟨k, hk, hlt⟩
        refine ⟨k + 1, by simpa using hk, ?_⟩
        simpa [List.take_succ_cons] using hlt
      · rintro ⟨k, hk, hlt⟩
        cases k with
        | zero =>
          simp only [zero_add, List.take_succ_cons, List.take_zero, List.foldl_cons,
            List.foldl_nil] at hlt
          exact absurd hlt hbreak
        | succ k =>
          refine ⟨k, by simpa using hk, ?_⟩
          simpa [List.take_succ_cons] using hlt

/-- The row loop in binary64 adds pages in the same way: pages are only ever
added, and one is added exactly when, for some row, the cursor reached by
subtracting the heights up to and including that row, one at a time and each
difference rounded, is below the bottom margin. -/
theorem rowLoop64_pages (marginBottom marginTop newPageHeight : ℚ) :
    ∀ (hs : List ℚ) (y : ℚ) (p : ℕ),
      p ≤ (rowLoop64 marginBottom marginTop newPageHeight (y, p) hs).2 ∧
      (p < (rowLoop64 marginBottom marginTop newPageHeight (y, p) hs).2 ↔
        ∃ k, k < hs.length ∧ (hs.take (k + 1)).foldl fsub y < marginBottom) := by
  intro hs
  induction hs with
  | nil => intro y p; exact ⟨le_refl _, by simp [rowLoop64]⟩
  | cons h rest ih =>
    intro y p
    by_cases hbreak : fsub y h < marginBottom
    · obtain ⟨hmono, -⟩ := ih (fsub (fsub newPageHeight marginTop) h) (p + 1)
      simp only [rowLoop64, if_pos hbreak]
      refine ⟨by omega, fun _ => ⟨0, by simp, ?_⟩, fun _ => by omega⟩
      simpa using hbreak
    · obtain ⟨hmono, hiff⟩ := ih (fsub y h) p
      simp only [rowLoop64, if_neg hbreak]
      refine ⟨hmono, ?_⟩
      rw [hiff]
      constructor
      · rintro ⟨k, hk, hlt⟩
        refine ⟨k + 1, by simpa using hk, ?_⟩
        simpa [List.take_succ_cons] using hlt
      · rintro ⟨k, hk, hlt⟩
        cases k with
        | zero =>
          simp only [zero_add, List.take_succ_cons, List.take_zero, List.foldl_cons,
            List.foldl_nil] at hlt
          exact absurd hlt hbreak
        | succ k =>
          refine ⟨k, by simpa using hk, ?_⟩
          simpa [List.take_succ_cons] using hlt

/-- The rounding at a few values: 0.1 is held as 3602879701896397 / 2 ^ 55,
an integer below 2 ^ 53 and a half are held as they are, 2 ^ 53 + 1 is a tie
and goes to the even 2 ^ 53, and rounding a rounded value changes nothing. -/
theorem round64_values :
    round64 (1 / 10) = 3602879701896397 / 36028797018963968 ∧
    round64 0 = 0 ∧ round64 50 = 50 ∧ round64 (1 / 2) = 1 / 2 ∧
    round64 (-(1 / 10)) = -round64 (1 / 10) ∧
    round64 9007199254740993 = 9007199254740992 ∧
    round64 9007199254740995 = 9007199254740996 ∧
    round64 (round64 (59528 / 100)) = round64 (59528 / 100) := by
  refine ⟨?_, ?_, ?_, ?_, ?_, ?_, ?_, ?_⟩ <;> decide!

/-- The left edge of the first column in binary64 is the left margin as the
code holds it: `startX + cellWidth * 0`. -/
theorem cellStartX64_zero (marginLeft cellWidth : ℚ) :
    cellStartX64 marginLeft cellWidth 0 = round64 marginLeft := by
  have h0 : round64 0 = 0 := by simp [round64]
  simp [cellStartX64, fadd, fmul, h0]

/-- A text of one character other than a space, when it fits, wraps to
itself. -/
theorem wrapTextIntoLines_char (fuel : Nat) (c : Char) (font : Font) (S W : ℚ) (hc : c ≠ ' ')
    (hfit : font.widthOfTextAtSize [c] S ≤ W) :
    wrapTextIntoLines fuel [c] font S W = .ok [[c]] := by
  have hsplit : ([c] : Str).splitOn ' ' = [[c]] := by
    simp [List.splitOn, List.splitOnP_cons, hc]
  unfold wrapTextIntoLines
  rw [hsplit]
  simp only [wordLoop, wordStep]
  rw [if_neg (fun h => h.1 rfl), if_pos hfit]
  simp

/-! ## Claims on drawTable -/

/-- C4: a row with pre-computed height `h`, drawn at cursor `Y`. If
`Y - h < margin.bottom`, exactly one page is added, every call of the row goes
to that new page, the top of every rectangle is `newPage.height - margin.top`
and the cursor ends at `newPage.height - margin.top - h`. Otherwise no page is
added, every call goes to the current page, the top of every rectangle is `Y`
and the cursor ends at `Y - h`. The row draws one rectangle a cell, each of
height `h`. -/
theorem drawRow_pagination (fuel : Nat) (env : Env) (opts : Options) (cur : Cursor)
    (row : List Cell) (h : ℚ) (hpre : rowHeight fuel env opts row = .ok h) :
    ∃ cur' calls, drawRow fuel env opts cur row h = .ok (cur', calls) ∧
      (rectangles calls).length = row.length ∧
      (∀ r ∈ rectangles calls, r.height = h) ∧
      (cur.currentY - h < opts.margin.bottom →
        cur'.pagesAdded = cur.pagesAdded + 1 ∧
        cur'.currentPage = cur.pagesAdded + 1 ∧
        (∀ c ∈ calls, c.page = cur.pagesAdded + 1) ∧
        (∀ r ∈ rectangles calls, r.y + r.height = env.newPageHeight - opts.margin.top) ∧
        cur'.currentY = env.newPageHeight - opts.margin.top - h) ∧
      (¬ cur.currentY - h < opts.margin.bottom →
        cur'.pagesAdded = cur.pagesAdded ∧
        cur'.currentPage = cur.currentPage ∧
        (∀ c ∈ calls, c.page = cur.currentPage) ∧
        (∀ r ∈ rectangles calls, r.y + r.height = cur.currentY) ∧
        cur'.currentY = cur.currentY - h) := by
  obtain ⟨calls, hcalls, hpage, hrect⟩ := drawRow_ok fuel env opts cur row h h hpre
  have hgeom : ∀ r ∈ rectangles calls,
      r.height = h ∧ r.y + r.height = (breakPage env opts cur h).currentY := by
    intro r hr
    rw [hrect, List.mem_map] at hr
    obtain ⟨p, -, rfl⟩ := hr
    simp [cellRect]
  refine ⟨rowCursor env opts cur h, calls, hcalls, ?_, fun r hr => (hgeom r hr).1, ?_, ?_⟩
  · rw [hrect, List.length_map, List.enumFrom_length]
  · intro hbreak
    have hb : breakPage env opts cur h =
        ⟨cur.pagesAdded + 1, env.newPageHeight - opts.margin.top, cur.pagesAdded + 1⟩ := by
      simp [breakPage, hbreak]
    refine ⟨by simp [rowCursor, hb], by simp [rowCursor, hb], ?_, ?_, by simp [rowCursor, hb]⟩
    · intro c hc
      rw [hpage c hc, hb]
    · intro r hr
      rw [(hgeom r hr).2, hb]
  · intro hbreak
    have hb : breakPage env opts cur h = cur := by
      simp [breakPage, hbreak]
    refine ⟨by simp [rowCursor, hb], by simp [rowCursor, hb], ?_, ?_, by simp [rowCursor, hb]⟩
    · intro c hc
      rw [hpage c hc, hb]
    · intro r hr
      rw [(hgeom r hr).2, hb]

/-- C4 at a row of two short cells met at `Y = -30`: it does not fit above the
bottom margin of 50 and moves to a new page. -/
theorem drawRow_pagination_witness :
    ∃ cur' calls,
      drawRow 0 a4Env defaultOptions ⟨0, -30, 0⟩ [.plain ['x'], .plain ['y']] 24
        = .ok (cur', calls) ∧
      cur'.pagesAdded = 1 ∧ cur'.currentPage = 1 ∧ (∀ c ∈ calls, c.page = 1) ∧
      cur'.currentY = 84189 / 100 - 10 - 24 := by
  obtain ⟨cur', calls, hrow, -, -, hbreak, -⟩ :=
    drawRow_pagination 0 a4Env defaultOptions ⟨0, -30, 0⟩ [.plain ['x'], .plain ['y']] 24
      (by decide!)
  obtain ⟨h1, h2, h3, -, h5⟩ := hbreak (by decide!)
  exact ⟨cur', calls, hrow, h1, h2, h3, h5⟩

/-- C5 as stated fails: with the default options on a 595.28 x 841.89 page the
row `x`, `y` has height `1 * 14 + 5 + 5`, but `drawTable` returns the page it
added, not the page it was called on, and
`endY = 841.89 - 10 - 24`, not `startY - headerHeight - 24`. -/
theorem drawTable_default_single_row_counterexample :
    rowHeights 0 a4Env defaultOptions [[.plain ['x'], .plain ['y']]] = .ok [1 * 14 + 5 + 5] ∧
    (drawTable 0 a4Env [['A'], ['B']] [[.plain ['x'], .plain ['y']]] defaultOptions).map
      (fun out => (out.lastPage, out.endY)) = .ok (1, 84189 / 100 - 10 - 24) ∧
    (1 : Nat) ≠ 0 ∧
    (84189 / 100 - 10 - 24 : ℚ) ≠ startY defaultOptions - defaultOptions.headerHeight - 24 := by
  refine ⟨?_, ?_, ?_, ?_⟩ <;> decide!

/-- C5 (amended): for headers `A`, `B` and the single row `x`, `y` with the
default options on a page 595.28 wide, when `x` and `y` fit the content width
237.64 at size 14, the row has height `1 * 14 + 5 + 5 = 24`; since
`startY - headerHeight - 24 = -54` is below `margin.bottom = 50`, `drawTable`
adds one page, returns that page as `lastPage` and
`endY = newPage.height - margin.top - 24`. -/
theorem drawTable_default_single_row (fuel : Nat) (env : Env)
    (hwidth : env.width = 59528 / 100)
    (hx : env.font.widthOfTextAtSize ['x'] 14 ≤ 23764 / 100)
    (hy : env.font.widthOfTextAtSize ['y'] 14 ≤ 23764 / 100) :
    rowHeights fuel env defaultOptions [[.plain ['x'], .plain ['y']]] = .ok [24] ∧
    ∃ out, drawTable fuel env [['A'], ['B']] [[.plain ['x'], .plain ['y']]] defaultOptions
        = .ok out ∧
      out.pagesAdded = 1 ∧ out.lastPage = 1 ∧
      out.endY = env.newPageHeight - defaultOptions.margin.top - 24 := by
  have hW : usableWidth env defaultOptions / (2 : ℕ) - defaultOptions.cellPadding.left
      - defaultOptions.cellPadding.right = 23764 / 100 := by
    simp only [usableWidth, defaultOptions, hwidth]
    norm_num
  have hwx := wrapTextIntoLines_char fuel 'x' env.font 14 (23764 / 100) (by decide) hx
  have hwy := wrapTextIntoLines_char fuel 'y' env.font 14 (23764 / 100) (by decide) hy
  have hpre : rowHeights fuel env defaultOptions [[.plain ['x'], .plain ['y']]] = .ok [24] := by
    simp only [rowHeights, rowHeight, maxCellHeightLoop, cellHeight, List.length_cons,
      List.length_nil, Nat.zero_add, Nat.reduceAdd, hW, cellValue, cellFontSize, wrapValue]
    simp only [defaultOptions, hwx, hwy]
    norm_num
  refine ⟨hpre, ?_⟩
  obtain ⟨rowCalls, hout⟩ := drawTable_ok fuel env [['A'], ['B']]
    [[.plain ['x'], .plain ['y']]] defaultOptions [24] hpre
  have hbreak : (-10 - 20 - 24 : ℚ) < 50 := by norm_num
  refine ⟨_, hout, ?_, ?_, ?_⟩
  · simp [rowCursor, breakPage, tableStartY, startY, defaultOptions, hbreak]
  · simp [rowCursor, breakPage, tableStartY, startY, defaultOptions, hbreak]
  · simp [rowCursor, breakPage, tableStartY, startY, defaultOptions, hbreak]

/-- C5 (amended) on the test page with the fixed-pitch font. -/
theorem drawTable_default_single_row_witness :
    rowHeights 0 a4Env defaultOptions [[.plain ['x'], .plain ['y']]] = .ok [24] ∧
    ∃ out, drawTable 0 a4Env [['A'], ['B']] [[.plain ['x'], .plain ['y']]] defaultOptions
        = .ok out ∧
      out.pagesAdded = 1 ∧ out.lastPage = 1 ∧
      out.endY = a4Env.newPageHeight - defaultOptions.margin.top - 24 :=
  drawTable_default_single_row 0 a4Env rfl (by decide!) (by decide!)

/-- C6 as stated fails in the code's arithmetic. With `startPosY = 0.6`,
`margin.top = 0`, no headers, `cellPadding.top = 0.1`, `cellPadding.bottom = 0`
and `margin.bottom = 0.3`, a row of one empty cell has height 0.1 and a row of
one one-line cell of font size 0.1 has height 0.2; the row loop subtracts them
one at a time, `(0.6 - 0.1) - 0.2`, which is 0.3 and not below 0.3, so no page
is added, although 0.6 less the sum of the heights is below 0.3, whether the
sum is taken exactly or in binary64. -/
theorem rowLoop64_sum_counterexample :
    cellHeight64 0 14 (round64 (1 / 10)) 0 = round64 (1 / 10) ∧
    cellHeight64 1 (round64 (1 / 10)) (round64 (1 / 10)) 0 = round64 (2 / 10) ∧
    fsub (fsub (round64 (6 / 10)) 0) 0 = round64 (6 / 10) ∧
    (rowLoop64 (round64 (3 / 10)) 0 (round64 (84189 / 100)) (round64 (6 / 10), 0)
      [round64 (1 / 10), round64 (2 / 10)]).2 = 0 ∧
    round64 (6 / 10) - (round64 (1 / 10) + round64 (2 / 10)) < round64 (3 / 10) ∧
    fsub (round64 (6 / 10)) (fadd (round64 (1 / 10)) (round64 (2 / 10)))
      < round64 (3 / 10) := by
  refine ⟨?_, ?_, ?_, ?_, ?_, ?_⟩ <;> decide!

/-- C6 (amended): for a list of rows whose pre-pass returned the heights `hs`,
`drawTable` returns, and it has added at least one page if and only if for
some row `k` the cursor reached from
`startPosY - margin.top - (headerHeight if there are headers, else 0)` by
subtracting the heights of the rows up to and including `k`, one at a time as
line 183 does, is below `margin.bottom`, which is the test of line 122; in
particular the hundred rows of the tests under the default options (those of
the tests) leave the document with more than one page. The same equivalence
holds of the row loop in binary64, each difference rounded. -/
theorem drawTable_adds_page_iff_running (fuel : Nat) (env : Env) :
    (∀ (headers : List Str) (rows : List (List Cell)) (opts : Options) (hs : List ℚ),
      rowHeights fuel env opts rows = .ok hs →
      ∃ out, drawTable fuel env headers rows opts = .ok out ∧
        (0 < out.pagesAdded ↔ ∃ k, k < hs.length ∧
          (hs.take (k + 1)).foldl (fun y h => y - h)
            (opts.startPosY - opts.margin.top
              - (if headers.length > 0 then opts.headerHeight else 0))
            < opts.margin.bottom)) ∧
    (∀ hs : List ℚ, rowHeights fuel env defaultOptions testRows = .ok hs →
      ∃ out, drawTable fuel env testHeaders testRows defaultOptions = .ok out ∧
        1 < 1 + out.pagesAdded) ∧
    (∀ (marginBottom marginTop newPageHeight y : ℚ) (hs : List ℚ),
      0 < (rowLoop64 marginBottom marginTop newPageHeight (y, 0) hs).2 ↔
        ∃ k, k < hs.length ∧ (hs.take (k + 1)).foldl fsub y < marginBottom) := by
  have main : ∀ (headers : List Str) (rows : List (List Cell)) (opts : Options) (hs : List ℚ),
      rowHeights fuel env opts rows = .ok hs →
      ∃ out, drawTable fuel env headers rows opts = .ok out ∧
        (0 < out.pagesAdded ↔ ∃ k, k < hs.length ∧
          (hs.take (k + 1)).foldl (fun y h => y - h)
            (opts.startPosY - opts.margin.top
              - (if headers.length > 0 then opts.headerHeight else 0))
            < opts.margin.bottom) := by
    intro headers rows opts hs hpre
    obtain ⟨rowCalls, hout⟩ := drawTable_ok fuel env headers rows opts hs hpre
    have hstart : tableStartY opts headers = opts.startPosY - opts.margin.top
        - (if headers.length > 0 then opts.headerHeight else 0) := rfl
    refine ⟨_, hout, ?_⟩
    rw [← hstart]
    exact (foldl_rowCursor_pages env opts hs ⟨0, tableStartY opts headers, 0⟩).2
  refine ⟨main, ?_, fun marginBottom marginTop newPageHeight y hs =>
    (rowLoop64_pages marginBottom marginTop newPageHeight hs y 0).2⟩
  intro hs hpre
  obtain ⟨out, hout, hiff⟩ := main testHeaders testRows defaultOptions hs hpre
  refine ⟨out, hout, ?_⟩
  have hall := rowHeights_ok fuel env defaultOptions testRows hs hpre
  have hlen : hs.length = 100 := by
    rw [← hall.length_eq]
    simp [testRows]
  have hpages : 0 < out.pagesAdded := by
    rw [hiff]
    refine ⟨0, by omega, ?_⟩
    cases hs with
    | nil => simp at hlen
    | cons h0 rest =>
      have h0nn : 0 ≤ h0 :=
        rowHeight_nonneg fuel env defaultOptions testRows[0] h0
          (List.Forall₂.get hall (by simp [testRows]) (by simp))
      simp only [zero_add, List.take_succ_cons, List.take_zero, List.foldl_cons,
        List.foldl_nil]
      have hh : (if testHeaders.length > 0 then defaultOptions.headerHeight else 0) = 20 := by
        simp [testHeaders, defaultOptions]
      rw [hh]
      have hs0 : defaultOptions.startPosY = 0 := rfl
      have ht0 : defaultOptions.margin.top = 10 := rfl
      have hb0 : defaultOptions.margin.bottom = 50 := rfl
      rw [hs0, ht0, hb0]
      linarith
  omega

/-- C6 (amended) at the hundred rows of the tests on the test page: each row
is 24 high. -/
theorem drawTable_adds_page_iff_running_witness :
    (∃ out, drawTable 0 a4Env testHeaders testRows defaultOptions = .ok out ∧
      (0 < out.pagesAdded ↔ ∃ k, k < (List.replicate 100 (24 : ℚ)).length ∧
        ((List.replicate 100 (24 : ℚ)).take (k + 1)).foldl (fun y h => y - h)
          (defaultOptions.startPosY - defaultOptions.margin.top
            - (if testHeaders.length > 0 then defaultOptions.headerHeight else 0))
          < defaultOptions.margin.bottom)) ∧
    (∃ out, drawTable 0 a4Env testHeaders testRows defaultOptions = .ok out ∧
      1 < 1 + out.pagesAdded) :=
  ⟨(drawTable_adds_page_iff_running 0 a4Env).1 testHeaders testRows defaultOptions
      (List.replicate 100 24) (by decide!),
    (drawTable_adds_page_iff_running 0 a4Env).2.1 (List.replicate 100 24) (by decide!)⟩

/-- C7: with `H > 0` headers and no rows, `drawTable` returns after the header
band alone: `H` rectangles (those of the header loop) and `H` texts (the
headers), `2 * H` calls in all, every one on the page of the call; no page is
added, `lastPage` is that page and
`endY = startPosY - margin.top - headerHeight`. -/
theorem drawTable_empty_rows (fuel : Nat) (env : Env) (headers : List Str) (opts : Options)
    (hne : headers ≠ []) :
    ∃ out, drawTable fuel env headers [] opts = .ok out ∧
      rectangles out.calls = (List.range' 0 headers.length).map
        (headerRect env opts headers.length (opts.startPosY - opts.margin.top
          - opts.headerHeight)) ∧
      (rectangles out.calls).length = headers.length ∧
      (texts out.calls).map (fun t => t.text) = headers ∧
      (texts out.calls).length = headers.length ∧
      out.calls.length = 2 * headers.length ∧
      (∀ c ∈ out.calls, c.page = 0) ∧
      out.pagesAdded = 0 ∧ out.lastPage = 0 ∧
      out.endY = opts.startPosY - opts.margin.top - opts.headerHeight := by
  have hpos : 0 < headers.length := List.length_pos.mpr hne
  have hy : tableStartY opts headers
      = opts.startPosY - opts.margin.top - opts.headerHeight := by
    simp [tableStartY, startY, hpos]
  have hout : drawTable fuel env headers [] opts = .ok
      { lastPage := 0, endY := tableStartY opts headers, pagesAdded := 0,
        calls := drawHeaders env opts headers.length (tableStartY opts headers) 0 headers
          ++ [] } := rfl
  obtain ⟨h1, h2, h3, h4⟩ :=
    drawHeaders_spec env opts headers.length (tableStartY opts headers) headers 0
  rw [List.append_nil] at hout
  refine ⟨_, hout, ?_, ?_, h2, ?_, h3, h4, rfl, rfl, hy⟩
  · rw [h1, hy]
  · rw [h1, List.length_map, List.length_range']
  · rw [← List.length_map, h2]

/-- C7 at the two headers of the tests, as in the test with an empty array of
rows. -/
theorem drawTable_empty_rows_witness :
    ∃ out, drawTable 0 a4Env testHeaders [] defaultOptions = .ok out ∧
      out.calls.length = 4 ∧ out.pagesAdded = 0 ∧ out.lastPage = 0 ∧ out.endY = 0 - 10 - 20 := by
  obtain ⟨out, hout, -, -, -, -, hlen, -, hpages, hlast, hend⟩ :=
    drawTable_empty_rows 0 a4Env testHeaders defaultOptions (by decide)
  exact ⟨out, hout, hlen, hpages, hlast, hend⟩

/-- C8 as stated fails in the code's arithmetic: the cells do not tile. On the
page 595.28 wide with margins of 50, in a row of five cells the right edge
`x + width` of cell 1 is not the left edge of cell 2 (248.11199999999997
against 248.112), and in a row of fifteen cells the right edge of the last
cell is not `pageWidth - margin.right` (545.2800000000001 against 545.28),
whether the right edge is added exactly or in binary64. -/
theorem cellStartX64_tiling_counterexample :
    fadd (cellStartX64 50 (cellWidth64 pageWidth64 50 50 5) 1)
        (cellWidth64 pageWidth64 50 50 5)
      ≠ cellStartX64 50 (cellWidth64 pageWidth64 50 50 5) 2 ∧
    cellStartX64 50 (cellWidth64 pageWidth64 50 50 5) 1 + cellWidth64 pageWidth64 50 50 5
      ≠ cellStartX64 50 (cellWidth64 pageWidth64 50 50 5) 2 ∧
    fadd (cellStartX64 50 (cellWidth64 pageWidth64 50 50 15) 14)
        (cellWidth64 pageWidth64 50 50 15)
      ≠ fsub pageWidth64 50 ∧
    cellStartX64 50 (cellWidth64 pageWidth64 50 50 15) 14 + cellWidth64 pageWidth64 50 50 15
      ≠ fsub pageWidth64 50 := by
  refine ⟨?_, ?_, ?_, ?_⟩ <;> decide!

/-- C8 (amended): a row of `n` cells whose pre-pass returned is drawn with
`n` rectangles; the `j`-th has the width
`cellWidth = ((pageWidth - margin.right) - margin.left) / n` and the left edge
`margin.left + cellWidth * j`, the expressions of lines 118 and 131; the first
starts at `margin.left`, and the rectangle of a single cell starts at
`margin.left` and has the usable width
`(pageWidth - margin.right) - margin.left`. Nothing but the row itself
enters. -/
theorem drawRow_cell_rectangles (fuel : Nat) (env : Env) (opts : Options) (cur : Cursor)
    (row : List Cell) (h : ℚ) (hpre : rowHeight fuel env opts row = .ok h) :
    ∃ cur' calls, drawRow fuel env opts cur row h = .ok (cur', calls) ∧
      (rectangles calls).length = row.length ∧
      (∀ j, j < row.length → ∃ r, (rectangles calls)[j]? = some r ∧
        r.width = ((env.width - opts.margin.right) - opts.margin.left) / row.length ∧
        r.x = opts.margin.left + r.width * j) ∧
      (∀ r, (rectangles calls)[0]? = some r → r.x = opts.margin.left) ∧
      (row.length = 1 → ∀ r ∈ rectangles calls,
        r.x = opts.margin.left ∧
          r.width = (env.width - opts.margin.right) - opts.margin.left) := by
  obtain ⟨calls, hcalls, -, hrect⟩ := drawRow_ok fuel env opts cur row h h hpre
  have hU : usableWidth env opts = (env.width - opts.margin.right) - opts.margin.left := rfl
  have hlen : (rectangles calls).length = row.length := by
    rw [hrect, List.length_map, List.enumFrom_length]
  have key : ∀ j r, (rectangles calls)[j]? = some r → j < row.length ∧
      r.width = ((env.width - opts.margin.right) - opts.margin.left) / row.length ∧
      r.x = opts.margin.left + r.width * j := by
    intro j r hr
    rw [hrect] at hr
    obtain ⟨hlt, cell, -, rfl⟩ := cellRects_getElem opts row _ _ _ _ j r hr
    exact ⟨hlt, by simp only [cellRect, hU], by simp only [cellRect, hU]⟩
  refine ⟨rowCursor env opts cur h, calls, hcalls, hlen, ?_, ?_, ?_⟩
  · intro j hj
    have hj' : j < (rectangles calls).length := by rw [hlen]; exact hj
    exact ⟨(rectangles calls)[j], List.getElem?_eq_getElem hj',
      (key j _ (List.getElem?_eq_getElem hj')).2⟩
  · intro r hr
    rw [(key 0 r hr).2.2]
    simp
  · intro h1 r hr
    obtain ⟨j, hj, hget⟩ := List.getElem_of_mem hr
    have hsome : (rectangles calls)[j]? = some r := by
      rw [List.getElem?_eq_getElem hj, hget]
    obtain ⟨hlt, hw, hx⟩ := key j r hsome
    have hj0 : j = 0 := by omega
    subst hj0
    refine ⟨by rw [hx]; simp, ?_⟩
    rw [hw, h1]
    simp

/-- C8 (amended) at a row of one short cell on the test page: its rectangle
starts at the left margin and has the usable width. -/
theorem drawRow_cell_rectangles_witness :
    ∃ cur' calls,
      drawRow 0 a4Env defaultOptions ⟨0, 800, 0⟩ [.plain ['x']] 24 = .ok (cur', calls) ∧
      ∀ r ∈ rectangles calls, r.x = 50 ∧ r.width = (59528 / 100 - 50) - 50 := by
  obtain ⟨cur', calls, hrow, -, -, -, hone⟩ :=
    drawRow_cell_rectangles 0 a4Env defaultOptions ⟨0, 800, 0⟩ [.plain ['x']] 24
      (by decide!)
  exact ⟨cur', calls, hrow, hone rfl⟩

/-- C9 as stated fails in the code's arithmetic: the header rectangles do not
tile. On the page 595.28 wide with margins of 50, with five headers the right
edge `x + width` of header 1 is not the left edge of header 2
(248.11199999999997 against 248.112), and with fifteen headers the right edge
of header 1 is not the left edge of header 2 (116.03733333333332 against
116.03733333333334), whether the right edge is added exactly or in binary64.
And with the margins 36.6 on the left and 72.3 on the right the width of a
single header, which the code computes as `(pageWidth - margin.right) -
margin.left`, is not `(pageWidth - margin.left) - margin.right`. -/
theorem headerRect64_tiling_counterexample :
    fadd (cellStartX64 50 (cellWidth64 pageWidth64 50 50 5) 1)
        (cellWidth64 pageWidth64 50 50 5)
      = round64 (24811199999999997 / 100000000000000) ∧
    cellStartX64 50 (cellWidth64 pageWidth64 50 50 5) 2 = round64 (248112 / 1000) ∧
    round64 (24811199999999997 / 100000000000000) ≠ round64 (248112 / 1000) ∧
    cellStartX64 50 (cellWidth64 pageWidth64 50 50 5) 1 + cellWidth64 pageWidth64 50 50 5
      ≠ cellStartX64 50 (cellWidth64 pageWidth64 50 50 5) 2 ∧
    fadd (cellStartX64 50 (cellWidth64 pageWidth64 50 50 15) 1)
        (cellWidth64 pageWidth64 50 50 15)
      ≠ cellStartX64 50 (cellWidth64 pageWidth64 50 50 15) 2 ∧
    cellStartX64 50 (cellWidth64 pageWidth64 50 50 15) 1 + cellWidth64 pageWidth64 50 50 15
      ≠ cellStartX64 50 (cellWidth64 pageWidth64 50 50 15) 2 ∧
    cellWidth64 pageWidth64 (round64 (366 / 10)) (round64 (723 / 10)) 1
      ≠ fdiv (fsub (fsub pageWidth64 (round64 (366 / 10))) (round64 (723 / 10))) 1 := by
  refine ⟨?_, ?_, ?_, ?_, ?_, ?_, ?_⟩ <;> decide!

/-- C9 (amended): the header loop, which runs before anything that can fail,
draws one rectangle a header; the `i`-th has the width
`cellWidth = ((pageWidth - margin.right) - margin.left) / H`, the height
`headerHeight` and the left edge `margin.left + cellWidth * i`, the
expressions of lines 59 and 60; the first starts at `margin.left`. Whenever
`drawTable` returns, these are the first calls of its log. -/
theorem drawHeaders_rectangles (env : Env) (opts : Options) (headers : List Str)
    (hH : 0 < headers.length) :
    (rectangles (drawHeaders env opts headers.length (tableStartY opts headers) 0
      headers)).length = headers.length ∧
    (∀ i, i < headers.length → ∃ r,
      (rectangles (drawHeaders env opts headers.length (tableStartY opts headers) 0
        headers))[i]? = some r ∧
      r.width = ((env.width - opts.margin.right) - opts.margin.left) / headers.length ∧
      r.height = opts.headerHeight ∧
      r.x = opts.margin.left + r.width * i) ∧
    (∃ r, (rectangles (drawHeaders env opts headers.length (tableStartY opts headers) 0
        headers))[0]? = some r ∧ r.x = opts.margin.left) ∧
    (∀ (fuel : Nat) (rows : List (List Cell)) (out : Output),
      drawTable fuel env headers rows opts = .ok out →
      ∃ rowCalls, out.calls
        = drawHeaders env opts headers.length (tableStartY opts headers) 0 headers
          ++ rowCalls) := by
  obtain ⟨hrect, -, -, -⟩ :=
    drawHeaders_spec env opts headers.length (tableStartY opts headers) headers 0
  have hU : usableWidth env opts = (env.width - opts.margin.right) - opts.margin.left := rfl
  have key : ∀ i, i < headers.length →
      (rectangles (drawHeaders env opts headers.length (tableStartY opts headers) 0
        headers))[i]? =
        some (headerRect env opts headers.length (tableStartY opts headers) i) := by
    intro i hi
    rw [hrect, List.getElem?_map, List.getElem?_range' _ _ hi]
    simp
  refine ⟨?_, ?_, ?_, ?_⟩
  · rw [hrect, List.length_map, List.length_range']
  · intro i hi
    exact ⟨_, key i hi, by simp only [headerRect, hU], rfl, by simp only [headerRect, hU]⟩
  · exact ⟨_, key 0 hH, by simp [headerRect]⟩
  · intro fuel rows out hout
    simp only [drawTable] at hout
    split at hout
    · cases hout
    · split at hout
      · cases hout
      · rename_i cur rowCalls _
        simp only [Except.ok.injEq] at hout
        subst hout
        exact ⟨rowCalls, rfl⟩

/-- C9 (amended) at the two headers of the tests on the test page. -/
theorem drawHeaders_rectangles_witness :
    (rectangles (drawHeaders a4Env defaultOptions testHeaders.length
      (tableStartY defaultOptions testHeaders) 0 testHeaders)).length = testHeaders.length ∧
    ∃ r, (rectangles (drawHeaders a4Env defaultOptions testHeaders.length
        (tableStartY defaultOptions testHeaders) 0 testHeaders))[0]? = some r ∧
      r.x = defaultOptions.margin.left :=
  ⟨(drawHeaders_rectangles a4Env defaultOptions testHeaders (by decide)).1,
    (drawHeaders_rectangles a4Env defaultOptions testHeaders (by decide)).2.2.1⟩

/-- C10: a cell whose text has wrapped into `lines` at its effective font
size (the `fontSize` of an object cell when it has one that is not 0, else the
table `fontSize`) draws one rectangle `r` of the column width at the left edge
`margin.left + cellWidth * j`, and one text a line, at that size. When the
cell is an object with `align` `'center'`, each line is drawn at
`x = r.x + ((r.width - cellPadding.left - cellPadding.right) - text_width) / 2`,
the width of the line measured at the effective font size; in every other case
each line is drawn at `x = r.x + cellPadding.left`. -/
theorem drawCell_text_position (fuel : Nat) (env : Env) (opts : Options) (page : Nat)
    (currentY totalHeight cellWidth maxCellHeight : ℚ) (j : Nat) (cell : Cell)
    (size : ℚ) (lines : List Str)
    (hsize : size =
      match cell with
      | .plain _ => opts.fontSize
      | .styled o =>
        match o.fontSize with
        | some s => if s = 0 then opts.fontSize else s
        | none => opts.fontSize)
    (hwrap : wrapValue fuel (cellValue cell) env.font size
      (cellWidth - opts.cellPadding.left - opts.cellPadding.right) = .ok lines) :
    ∃ calls r,
      drawCell fuel env opts page currentY totalHeight cellWidth maxCellHeight j cell
        = .ok calls ∧
      rectangles calls = [r] ∧ r.width = cellWidth ∧
      r.x = opts.margin.left + cellWidth * j ∧
      (texts calls).map (fun t => t.text) = lines ∧
      (∀ t ∈ texts calls, t.size = size) ∧
      (∀ o, cell = .styled o → o.align = some Align.center → ∀ t ∈ texts calls,
        t.x = r.x + ((r.width - opts.cellPadding.left - opts.cellPadding.right)
          - env.font.widthOfTextAtSize t.text size) / 2) ∧
      ((∀ o, cell = .styled o → o.align ≠ some Align.center) → ∀ t ∈ texts calls,
        t.x = r.x + opts.cellPadding.left) := by
  have hcs : cellFontSize opts.fontSize cell = size := by
    rw [hsize]
    cases cell with
    | plain s => rfl
    | styled o =>
      simp only [cellFontSize]
      cases o.fontSize with
      | none => rfl
      | some s =>
        by_cases hs : s = 0
        · simp [hs]
        · simp [hs]
  rw [← hcs] at hwrap
  have hcell := drawCell_ok fuel env opts page currentY totalHeight cellWidth maxCellHeight
    j cell lines hwrap
  obtain ⟨hl1, hl2, -, hl4⟩ := drawLines_spec env opts page cell
    (opts.margin.left + cellWidth * j) (currentY - totalHeight) cellWidth maxCellHeight lines 0
  refine ⟨_, cellRect opts cell (opts.margin.left + cellWidth * j) (currentY - totalHeight)
    cellWidth maxCellHeight, hcell, ?_, rfl, rfl, ?_, ?_, ?_, ?_⟩
  · simp only [rectangles, hl1]
  · simpa only [texts] using hl2
  · intro t ht
    simp only [texts] at ht
    rw [← hcs]
    exact (hl4 t ht).1
  · intro o ho hc t ht
    simp only [texts] at ht
    rw [(hl4 t ht).2, ← hcs]
    subst ho
    simp [textX, hc, cellRect]
  · intro hnc t ht
    simp only [texts] at ht
    rw [(hl4 t ht).2]
    cases cell with
    | plain s => simp [textX, cellRect]
    | styled o => simp [textX, cellRect, hnc o rfl]

/-- C10 at a centred cell `ab` with the font size 20 in the first of two
columns of the test page, where the table font size is 14: the line is drawn
at size 20 and placed by its width at size 20. -/
theorem drawCell_text_position_witness :
    ∃ calls r,
      drawCell 0 a4Env defaultOptions 0 800 30 (24764 / 100) 30 0
        (.styled { text := ['a', 'b'], fontSize := some 20, align := some Align.center })
        = .ok calls ∧
      rectangles calls = [r] ∧
      (texts calls).map (fun t => t.text) = [['a', 'b']] ∧
      (∀ t ∈ texts calls, t.size = 20) ∧
      ∀ t ∈ texts calls,
        t.x = r.x + ((r.width - 5 - 5) - a4Env.font.widthOfTextAtSize t.text 20) / 2 := by
  obtain ⟨calls, r, hcell, hrect, -, -, htexts, hsize, hcentre, -⟩ :=
    drawCell_text_position 0 a4Env defaultOptions 0 800 30 (24764 / 100) 30 0
      (.styled { text := ['a', 'b'], fontSize := some 20, align := some Align.center })
      20 [['a', 'b']] (by decide!) (by decide!)
  exact ⟨calls, r, hcell, hrect, htexts, hsize, hcentre _ rfl rfl⟩

/-! ## The characters of the lines -/

/-- Joining with single spaces and then deleting the spaces is the same as
concatenating and then deleting the spaces. -/
theorem filter_intercalate (L : List Str) :
    (List.intercalate [' '] L).filter (fun c => c != ' ')
      = L.flatten.filter (fun c => c != ' ') := by
  induction L with
  | nil => rfl
  | cons a L ih =>
    cases L with
    | nil => simp [List.intercalate]
    | cons b L =>
      simp only [List.intercalate, List.intersperse_cons₂, List.flatten_cons,
        List.filter_append] at ih ⊢
      rw [ih]
      simp

/-- The words of a text, concatenated, spell the text without its spaces. -/
theorem filter_splitOn (T : Str) :
    (T.splitOn ' ').flatten.filter (fun c => c != ' ') = T.filter (fun c => c != ' ') := by
  rw [← filter_intercalate, List.intercalate_splitOn]

/-- One pass of the word loop adds the characters of the word, and nothing
else but spaces, to the lines and the accumulator. -/
theorem wordStep_content (font : Font) (S W : ℚ) (fuel : Nat) (st st' : List Str × Str)
    (w : Str) (h : wordStep font S W fuel st w = .ok st') :
    (st'.1.flatten ++ st'.2).filter (fun c => c != ' ')
      = (st.1.flatten ++ st.2).filter (fun c => c != ' ') ++ w.filter (fun c => c != ' ') := by
  obtain ⟨lines, cur⟩ := st
  have hflush : (if cur ≠ [] then lines ++ [cur] else lines).flatten = lines.flatten ++ cur := by
    by_cases hc : cur = []
    · simp [hc]
    · simp [hc]
  simp only [wordStep] at h
  split at h
  · simp only [Except.ok.injEq] at h
    subst h
    simp [List.filter_append]
  · split at h
    · simp only [Except.ok.injEq] at h
      subst h
      simp only [hflush, List.filter_append]
    · split at h
      · cases h
      · rename_i wp out hsplit
        simp only [Except.ok.injEq] at h
        subst h
        obtain ⟨pieces, hout, -, hjoin, -⟩ :=
          splitLoop_ok font S W fuel w 0 _ wp out hsplit (Nat.zero_le _) (Or.inl rfl)
        have hout' : (if wp ≠ [] then out ++ [wp] else out).flatten = out.flatten ++ wp := by
          by_cases hc : wp = []
          · simp [hc]
          · simp [hc]
        simp only [hout', List.append_nil]
        rw [hout, List.flatten_append, hflush, List.append_assoc, hjoin, List.filter_append]

/-- The word loop adds the characters of its words, in order. -/
theorem wordLoop_content (font : Font) (S W : ℚ) (fuel : Nat) :
    ∀ (ws : List Str) (st st' : List Str × Str),
      wordLoop font S W fuel ws st = .ok st' →
      (st'.1.flatten ++ st'.2).filter (fun c => c != ' ')
        = (st.1.flatten ++ st.2).filter (fun c => c != ' ')
          ++ ws.flatten.filter (fun c => c != ' ') := by
  intro ws
  induction ws with
  | nil =>
    intro st st' h
    simp only [wordLoop, Except.ok.injEq] at h
    subst h
    simp
  | cons w ws ih =>
    intro st st' h
    simp only [wordLoop] at h
    split at h
    · cases h
    · rename_i st1 hstep
      rw [ih st1 st' h, wordStep_content font S W fuel st st1 w hstep]
      simp only [List.flatten_cons, List.filter_append, List.append_assoc]

/-- One pass of the word loop on a word without spaces keeps: no finished
line and no accumulator starts with a space. -/
theorem wordStep_head (font : Font) (S W : ℚ) (fuel : Nat) (st st' : List Str × Str) (w : Str)
    (hw : ∀ c ∈ w, c ≠ ' ') (h : wordStep font S W fuel st w = .ok st')
    (hl : ∀ l ∈ st.1, l.head? ≠ some ' ') (hc : st.2.head? ≠ some ' ') :
    (∀ l ∈ st'.1, l.head? ≠ some ' ') ∧ st'.2.head? ≠ some ' ' := by
  obtain ⟨lines, cur⟩ := st
  simp only at hl hc
  have hsub : ∀ p : Str, (∀ c ∈ p, c ∈ w) → p.head? ≠ some ' ' := by
    intro p hp hhead
    cases p with
    | nil => simp at hhead
    | cons c cs =>
      simp only [List.head?_cons, Option.some.injEq] at hhead
      exact hw c (hp c (List.mem_cons_self _ _)) hhead
  have hflush : ∀ l ∈ (if cur ≠ [] then lines ++ [cur] else lines), l.head? ≠ some ' ' := by
    intro l hmem
    split at hmem
    · rcases List.mem_append.mp hmem with hm | hm
      · exact hl l hm
      · rw [List.mem_singleton] at hm
        subst hm
        exact hc
    · exact hl l hmem
  simp only [wordStep] at h
  split at h
  · rename_i happ
    simp only [Except.ok.injEq] at h
    subst h
    refine ⟨hl, ?_⟩
    simp only
    cases cur with
    | nil => exact absurd rfl happ.1
    | cons c cs => simpa using hc
  · split at h
    · simp only [Except.ok.injEq] at h
      subst h
      exact ⟨hflush, hsub w (fun c hc => hc)⟩
    · split at h
      · cases h
      · rename_i wp out hsplit
        simp only [Except.ok.injEq] at h
        subst h
        obtain ⟨pieces, hout, -, hjoin, -⟩ :=
          splitLoop_ok font S W fuel w 0 _ wp out hsplit (Nat.zero_le _) (Or.inl rfl)
        have hbase : ∀ l ∈ out, l.head? ≠ some ' ' := by
          intro l hmem
          rw [hout] at hmem
          rcases List.mem_append.mp hmem with hm | hm
          · exact hflush l hm
          · apply hsub l
            intro c hc
            rw [← hjoin]
            exact List.mem_append_left _ (List.mem_flatten.mpr ⟨l, hm, hc⟩)
        refine ⟨?_, by simp⟩
        intro l hmem
        split at hmem
        · rcases List.mem_append.mp hmem with hm | hm
          · exact hbase l hm
          · rw [List.mem_singleton] at hm
            subst hm
            apply hsub l
            intro c hc
            rw [← hjoin]
            exact List.mem_append_right _ hc
        · exact hbase l hmem

/-- The word loop on words without spaces keeps the same property. -/
theorem wordLoop_head (font : Font) (S W : ℚ) (fuel : Nat) :
    ∀ (ws : List Str) (st st' : List Str × Str),
      (∀ w ∈ ws, ∀ c ∈ w, c ≠ ' ') →
      wordLoop font S W fuel ws st = .ok st' →
      (∀ l ∈ st.1, l.head? ≠ some ' ') → st.2.head? ≠ some ' ' →
      (∀ l ∈ st'.1, l.head? ≠ some ' ') ∧ st'.2.head? ≠ some ' ' := by
  intro ws
  induction ws with
  | nil =>
    intro st st' _ h hl hc
    simp only [wordLoop, Except.ok.injEq] at h
    subst h
    exact ⟨hl, hc⟩
  | cons w ws ih =>
    intro st st' hws h hl hc
    simp only [wordLoop] at h
    split at h
    · cases h
    · rename_i st1 hstep
      obtain ⟨hl1, hc1⟩ := wordStep_head font S W fuel st st1 w
        (hws w (List.mem_cons_self _ _)) hstep hl hc
      exact ih st1 st' (fun v hv => hws v (List.mem_cons_of_mem _ hv)) h hl1 hc1

/-! ## More claims on wrapTextIntoLines -/

/-- C17 as stated fails: at width 4 the token `abcde` is split into `abcd` and
the remainder `e`; `e f` would fit, yet `e` is a line of its own and `f`
starts a new line. -/
theorem wrapTextIntoLines_remainder_counterexample :
    wrapTextIntoLines 20 "abcde f".toList countFont 1 4
        = .ok ["abcd".toList, "e".toList, "f".toList] ∧
      countFont.widthOfTextAtSize ("e".toList ++ [' '] ++ "f".toList) 1 ≤ 4 ∧
      wrapTextIntoLines 20 "abcde f".toList countFont 1 4
        ≠ .ok ["abcd".toList, "e f".toList] := by
  refine ⟨?_, ?_, ?_⟩ <;> decide!

/-- C17 (amended): when a token goes to the character-splitting loop and the
loop exits with remainder `rem`, the pass ends with `rem` (if not empty)
emitted as the last line and with an empty accumulator; the pass over the next
token then leaves every line emitted so far as it is, so nothing is appended
to the remainder. -/
theorem wordStep_split_emits_remainder (font : Font) (S W : ℚ) (fuel : Nat)
    (lines : List Str) (cur w rem : Str) (out : List Str)
    (hno : ¬ (cur ≠ [] ∧ font.widthOfTextAtSize (cur ++ [' '] ++ w) S ≤ W))
    (hbig : ¬ font.widthOfTextAtSize w S ≤ W)
    (hloop : splitLoop font S W fuel w 0 (if cur ≠ [] then lines ++ [cur] else lines)
      = .ok (rem, out)) :
    wordStep font S W fuel (lines, cur) w
        = .ok (if rem ≠ [] then out ++ [rem] else out, []) ∧
      ∀ (next : Str) (st' : List Str × Str),
        wordStep font S W fuel (if rem ≠ [] then out ++ [rem] else out, []) next = .ok st' →
        (if rem ≠ [] then out ++ [rem] else out) <+: st'.1 := by
  refine ⟨?_, ?_⟩
  · simp only [wordStep]
    rw [if_neg hno, if_neg hbig, hloop]
  · intro next st' hnext
    generalize (if rem ≠ [] then out ++ [rem] else out) = emitted at hnext ⊢
    simp only [wordStep] at hnext
    rw [if_neg (fun h => h.1 rfl)] at hnext
    simp only [ne_eq, not_true_eq_false, if_false] at hnext
    split at hnext
    · simp only [Except.ok.injEq] at hnext
      subst hnext
      exact List.prefix_refl _
    · split at hnext
      · cases hnext
      · rename_i wp out' hsplit
        simp only [Except.ok.injEq] at hnext
        subst hnext
        obtain ⟨pieces, hout, -, -, -⟩ :=
          splitLoop_ok font S W fuel next 0 _ wp out' hsplit (Nat.zero_le _) (Or.inl rfl)
        simp only
        split
        · rw [hout, List.append_assoc]
          exact List.prefix_append _ _
        · rw [hout]
          exact List.prefix_append _ _

/-- C17 (amended) at the token `abcde` with four characters to a line. -/
theorem wordStep_split_emits_remainder_witness :
    wordStep countFont 1 4 20 ([], []) "abcde".toList
        = .ok (if "e".toList ≠ [] then ["abcd".toList] ++ ["e".toList] else ["abcd".toList], []) ∧
      ∀ (next : Str) (st' : List Str × Str),
        wordStep countFont 1 4 20
          (if "e".toList ≠ [] then ["abcd".toList] ++ ["e".toList] else ["abcd".toList], [])
          next = .ok st' →
        (if "e".toList ≠ [] then ["abcd".toList] ++ ["e".toList] else ["abcd".toList])
          <+: st'.1 :=
  wordStep_split_emits_remainder countFont 1 4 20 [] [] "abcde".toList "e".toList
    ["abcd".toList] (by decide!) (by decide!) (by decide!)

/-- C18 as stated fails: with ample width `a  b` comes back as the single line
`a  b`, two spaces and all, not as `a b`; and `a ` comes back as `a `, with
its trailing space. -/
theorem wrapTextIntoLines_spaces_counterexample :
    wrapTextIntoLines 0 "a  b".toList countFont 1 10 = .ok ["a  b".toList] ∧
      [' ', ' '] <:+: "a  b".toList ∧
      wrapTextIntoLines 0 "a  b".toList countFont 1 10 ≠ .ok ["a b".toList] ∧
      wrapTextIntoLines 0 "a ".toList countFont 1 10 = .ok ["a ".toList] ∧
      ("a ".toList).getLast? = some ' ' := by
  refine ⟨?_, ?_, ?_, ?_, ?_⟩ <;> decide!

/-- C18 (amended): no line `wrapTextIntoLines` returns is empty or starts with
a space, for every text, font, size and width. -/
theorem wrapTextIntoLines_no_leading_space (fuel : Nat) (text : Str) (font : Font) (S W : ℚ)
    (lines : List Str) (h : wrapTextIntoLines fuel text font S W = .ok lines) :
    ∀ l ∈ lines, l ≠ [] ∧ l.head? ≠ some ' ' := by
  intro l hmem
  refine ⟨(wrapTextIntoLines_fits fuel text font S W lines h l hmem).1, ?_⟩
  simp only [wrapTextIntoLines] at h
  split at h
  · cases h
  · rename_i out cur hloop
    simp only [Except.ok.injEq] at h
    subst h
    obtain ⟨hl, hc⟩ := wordLoop_head font S W fuel _ ([], []) (out, cur)
      (fun w hw c hc => ((splitOn_mem text w hw).2 c hc).2) hloop (by simp) (by simp)
    split at hmem
    · rcases List.mem_append.mp hmem with hm | hm
      · exact hl l hm
      · rw [List.mem_singleton] at hm
        subst hm
        exact hc
    · exact hl l hmem

/-- C18 (amended) at ` a  b ` with three characters to a line. -/
theorem wrapTextIntoLines_no_leading_space_witness :
    wrapTextIntoLines 0 " a  b ".toList countFont 1 3 = .ok ["a ".toList, "b ".toList] ∧
      ∀ l ∈ ["a ".toList, "b ".toList], l ≠ [] ∧ l.head? ≠ some ' ' :=
  ⟨by decide!, wrapTextIntoLines_no_leading_space 0 " a  b ".toList countFont 1 3 _
    (by decide!)⟩

/-- C19: when `wrapTextIntoLines` returns, every line is non-empty, and the
lines concatenated in order, spaces deleted, are the text with its spaces
deleted. -/
theorem wrapTextIntoLines_keeps_characters (fuel : Nat) (text : Str) (font : Font) (S W : ℚ)
    (lines : List Str) (h : wrapTextIntoLines fuel text font S W = .ok lines) :
    (∀ l ∈ lines, l ≠ []) ∧
      lines.flatten.filter (fun c => c != ' ') = text.filter (fun c => c != ' ') := by
  refine ⟨fun l hl => (wrapTextIntoLines_fits fuel text font S W lines h l hl).1, ?_⟩
  simp only [wrapTextIntoLines] at h
  split at h
  · cases h
  · rename_i out cur hloop
    simp only [Except.ok.injEq] at h
    subst h
    have hcontent := wordLoop_content font S W fuel _ ([], []) (out, cur) hloop
    simp only [List.flatten_nil, List.append_nil, List.filter_nil, List.nil_append,
      filter_splitOn] at hcontent
    rw [← hcontent]
    by_cases hc : cur = []
    · simp [hc]
    · simp [hc]

/-- C19 at `abcde fg` with three characters to a line: the word `abcde` is
split. -/
theorem wrapTextIntoLines_keeps_characters_witness :
    wrapTextIntoLines 20 "abcde fg".toList countFont 1 3
        = .ok ["abc".toList, "de".toList, "fg".toList] ∧
      (∀ l ∈ ["abc".toList, "de".toList, "fg".toList], l ≠ []) ∧
      ["abc".toList, "de".toList, "fg".toList].flatten.filter (fun c => c != ' ')
        = "abcde fg".toList.filter (fun c => c != ' ') :=
  ⟨by decide!, wrapTextIntoLines_keeps_characters 20 "abcde fg".toList countFont 1 3 _
    (by decide!)⟩

/-! ## The row height of the pre-pass -/

/-- With an override that is not zero, or none, `row[j].fontSize || fontSize`
is the override or else the table font size. -/
theorem cellFontSize_eq_override (fontSize : ℚ) (cell : Cell)
    (h : ∀ s, fontSizeOverride cell = some s → s ≠ 0) :
    cellFontSize fontSize cell = (fontSizeOverride cell).getD fontSize := by
  cases cell with
  | plain s => rfl
  | styled o =>
    simp only [cellFontSize, fontSizeOverride] at h ⊢
    cases ho : o.fontSize with
    | none => rfl
    | some s =>
      have := h s ho
      simp [this]

/-- The pre-pass loop over cells that all have a height returns. -/
theorem maxCellHeightLoop_returns (fuel : Nat) (env : Env) (opts : Options) (n : Nat) :
    ∀ (cells : List Cell) (m : ℚ),
      (∀ cell ∈ cells, ∃ ch, cellHeight fuel env opts n cell = .ok ch) →
      ∃ h, maxCellHeightLoop fuel env opts n cells m = .ok h := by
  intro cells
  induction cells with
  | nil => intro m _; exact ⟨m, rfl⟩
  | cons cell rest ih =>
    intro m hall
    obtain ⟨ch, hch⟩ := hall cell (List.mem_cons_self _ _)
    obtain ⟨h, hh⟩ := ih (if ch > m then ch else m)
      (fun c hc => hall c (List.mem_cons_of_mem _ hc))
    exact ⟨h, by simp only [maxCellHeightLoop, hch, hh]⟩

/-- The result of the pre-pass loop is the maximum of the starting value and
the cell heights: it bounds them all and is one of them. -/
theorem maxCellHeightLoop_max (fuel : Nat) (env : Env) (opts : Options) (n : Nat) :
    ∀ (cells : List Cell) (m h : ℚ),
      maxCellHeightLoop fuel env opts n cells m = .ok h →
      m ≤ h ∧
      (∀ cell ∈ cells, ∀ ch, cellHeight fuel env opts n cell = .ok ch → ch ≤ h) ∧
      (h = m ∨ ∃ cell ∈ cells, cellHeight fuel env opts n cell = .ok h) := by
  intro cells
  induction cells with
  | nil =>
    intro m h hok
    simp only [maxCellHeightLoop, Except.ok.injEq] at hok
    subst hok
    exact ⟨le_refl _, by simp, Or.inl rfl⟩
  | cons cell rest ih =>
    intro m h hok
    simp only [maxCellHeightLoop] at hok
    split at hok
    · cases hok
    · rename_i c0 hcell
      obtain ⟨hle, hall, hatt⟩ := ih _ h hok
      have hm : m ≤ (if c0 > m then c0 else m) := by
        split
        · rename_i hgt; exact le_of_lt hgt
        · exact le_refl _
      have hc : c0 ≤ (if c0 > m then c0 else m) := by
        split
        · exact le_refl _
        · rename_i hgt; exact not_lt.mp hgt
      refine ⟨le_trans hm hle, ?_, ?_⟩
      · intro c hcmem ch hch
        rcases List.mem_cons.mp hcmem with rfl | hcmem
        · rw [hcell] at hch
          simp only [Except.ok.injEq] at hch
          subst hch
          exact le_trans hc hle
        · exact hall c hcmem ch hch
      · rcases hatt with heq | ⟨c, hcmem, hch⟩
        · by_cases hgt : c0 > m
          · right
            rw [if_pos hgt] at heq
            exact ⟨cell, List.mem_cons_self _ _, by rw [heq]; exact hcell⟩
          · left
            rw [if_neg hgt] at heq
            exact heq
        · exact Or.inr ⟨c, List.mem_cons_of_mem _ hcmem, hch⟩

/-- The pre-pass loop does not go down when its starting value goes up. -/
theorem maxCellHeightLoop_mono_start (fuel : Nat) (env : Env) (opts : Options) (n : Nat) :
    ∀ (cells : List Cell) (m m' h : ℚ), m ≤ m' →
      maxCellHeightLoop fuel env opts n cells m = .ok h →
      ∃ h', maxCellHeightLoop fuel env opts n cells m' = .ok h' ∧ h ≤ h' := by
  intro cells
  induction cells with
  | nil =>
    intro m m' h hle hok
    simp only [maxCellHeightLoop, Except.ok.injEq] at hok
    subst hok
    exact ⟨m', rfl, hle⟩
  | cons cell rest ih =>
    intro m m' h hle hok
    simp only [maxCellHeightLoop] at hok
    split at hok
    · cases hok
    · rename_i c0 hcell
      have hstep : (if c0 > m then c0 else m) ≤ (if c0 > m' then c0 else m') := by
        split <;> split <;> rename_i h1 h2
        · exact le_refl _
        · exact not_lt.mp h2
        · exact le_trans hle (le_of_lt h2)
        · exact hle
      obtain ⟨h', hh', hle'⟩ := ih _ _ h hstep hok
      exact ⟨h', by simp only [maxCellHeightLoop, hcell, hh'], hle'⟩

/-- The pre-pass loop does not go down when the height of one cell goes up
and the other cells stay as they are. -/
theorem maxCellHeightLoop_mono_cell (fuel : Nat) (env : Env) (opts : Options) (n : Nat)
    (c c' : Cell) (a a' : ℚ) (post : List Cell)
    (hc : cellHeight fuel env opts n c = .ok a) (hc' : cellHeight fuel env opts n c' = .ok a')
    (hle : a ≤ a') :
    ∀ (pre : List Cell) (m h : ℚ),
      maxCellHeightLoop fuel env opts n (pre ++ c :: post) m = .ok h →
      ∃ h', maxCellHeightLoop fuel env opts n (pre ++ c' :: post) m = .ok h' ∧ h ≤ h' := by
  intro pre
  induction pre with
  | nil =>
    intro m h hok
    simp only [List.nil_append, maxCellHeightLoop, hc] at hok
    have hstep : (if a > m then a else m) ≤ (if a' > m then a' else m) := by
      split <;> split <;> rename_i h1 h2
      · exact hle
      · exact absurd (lt_of_lt_of_le h1 hle) h2
      · exact le_of_lt h2
      · exact le_refl _
    obtain ⟨h', hh', hle'⟩ := maxCellHeightLoop_mono_start fuel env opts n post _ _ h hstep hok
    exact ⟨h', by simp only [List.nil_append, maxCellHeightLoop, hc', hh'], hle'⟩
  | cons p pre ih =>
    intro m h hok
    simp only [List.cons_append, maxCellHeightLoop, List.append_eq] at hok
    split at hok
    · cases hok
    · rename_i c0 hcell
      obtain ⟨h', hh', hle'⟩ := ih _ h hok
      exact ⟨h', by simp only [List.cons_append, maxCellHeightLoop, List.append_eq, hcell, hh'],
        hle'⟩

/-- C11: with non-negative top and bottom padding and positive font sizes,
for a row whose cells all wrap at the content width
`U / n - cellPadding.left - cellPadding.right`, the pre-pass returns a height
that is the maximum over the cells of
`lines * (override or else table fontSize) + cellPadding.top + cellPadding.bottom`:
it bounds every cell's value and, when the row has a cell, is the value of one
of them; a row with no cells has height 0. -/
theorem rowHeight_is_max (fuel : Nat) (env : Env) (opts : Options) (row : List Cell)
    (hpt : 0 ≤ opts.cellPadding.top) (hpb : 0 ≤ opts.cellPadding.bottom)
    (hfs : 0 < opts.fontSize)
    (hov : ∀ cell ∈ row, ∀ s, fontSizeOverride cell = some s → 0 < s)
    (hwrap : ∀ cell ∈ row, ∃ lines,
      wrapValue fuel (cellValue cell) env.font ((fontSizeOverride cell).getD opts.fontSize)
        ((env.width - opts.margin.left - opts.margin.right) / row.length
          - opts.cellPadding.left - opts.cellPadding.right) = .ok lines) :
    ∃ h, rowHeight fuel env opts row = .ok h ∧
      (row = [] → h = 0) ∧
      (∀ cell ∈ row, ∀ lines,
        wrapValue fuel (cellValue cell) env.font ((fontSizeOverride cell).getD opts.fontSize)
          ((env.width - opts.margin.left - opts.margin.right) / row.length
            - opts.cellPadding.left - opts.cellPadding.right) = .ok lines →
        lines.length * (fontSizeOverride cell).getD opts.fontSize
          + opts.cellPadding.top + opts.cellPadding.bottom ≤ h) ∧
      (row ≠ [] → ∃ cell ∈ row, ∃ lines,
        wrapValue fuel (cellValue cell) env.font ((fontSizeOverride cell).getD opts.fontSize)
          ((env.width - opts.margin.left - opts.margin.right) / row.length
            - opts.cellPadding.left - opts.cellPadding.right) = .ok lines ∧
        h = lines.length * (fontSizeOverride cell).getD opts.fontSize
          + opts.cellPadding.top + opts.cellPadding.bottom) := by
  have hU : usableWidth env opts = env.width - opts.margin.left - opts.margin.right := by
    simp only [usableWidth]; ring
  have hsize : ∀ cell ∈ row,
      cellFontSize opts.fontSize cell = (fontSizeOverride cell).getD opts.fontSize :=
    fun cell hc => cellFontSize_eq_override opts.fontSize cell
      (fun s hs => ne_of_gt (hov cell hc s hs))
  have hpos : ∀ cell ∈ row, 0 < (fontSizeOverride cell).getD opts.fontSize := by
    intro cell hc
    cases ho : fontSizeOverride cell with
    | none => simpa using hfs
    | some s => simpa using hov cell hc s ho
  have key : ∀ cell ∈ row, ∀ lines,
      wrapValue fuel (cellValue cell) env.font ((fontSizeOverride cell).getD opts.fontSize)
        ((env.width - opts.margin.left - opts.margin.right) / row.length
          - opts.cellPadding.left - opts.cellPadding.right) = .ok lines →
      cellHeight fuel env opts row.length cell
        = .ok (lines.length * (fontSizeOverride cell).getD opts.fontSize
          + opts.cellPadding.top + opts.cellPadding.bottom) := by
    intro cell hc lines hl
    simp only [cellHeight, hU, hsize cell hc, hl]
  obtain ⟨h, hh⟩ := maxCellHeightLoop_returns fuel env opts row.length row 0
    (fun cell hc => by
      obtain ⟨lines, hl⟩ := hwrap cell hc
      exact ⟨_, key cell hc lines hl⟩)
  obtain ⟨h0, hall, hatt⟩ := maxCellHeightLoop_max fuel env opts row.length row 0 h hh
  refine ⟨h, hh, ?_, ?_, ?_⟩
  · intro hnil
    subst hnil
    simp only [maxCellHeightLoop, Except.ok.injEq] at hh
    exact hh.symm
  · intro cell hc lines hl
    exact hall cell hc _ (key cell hc lines hl)
  · intro hne
    rcases hatt with hz | ⟨cell, hc, hch⟩
    · cases row with
      | nil => exact absurd rfl hne
      | cons cell rest =>
        have hc : cell ∈ cell :: rest := List.mem_cons_self _ _
        obtain ⟨lines, hl⟩ := hwrap cell hc
        refine ⟨cell, hc, lines, hl, ?_⟩
        have hle := hall cell hc _ (key cell hc lines hl)
        have hnn : (0 : ℚ) ≤ lines.length * (fontSizeOverride cell).getD opts.fontSize :=
          mul_nonneg (Nat.cast_nonneg _) (le_of_lt (hpos cell hc))
        rw [hz] at hle ⊢
        linarith
    · obtain ⟨lines, hl⟩ := hwrap cell hc
      refine ⟨cell, hc, lines, hl, ?_⟩
      have := key cell hc lines hl
      rw [hch] at this
      simpa using this

/-- C11 at a row of a cell `ab` with font size 20 and a cell `x` on the test
page: the pre-pass returns a height that bounds the height of every cell. -/
theorem rowHeight_is_max_witness :
    ∃ h, rowHeight 0 a4Env defaultOptions
        [.styled { text := ['a', 'b'], fontSize := some 20 }, .plain ['x']] = .ok h ∧
      ∀ cell ∈ [Cell.styled { text := ['a', 'b'], fontSize := some 20 }, Cell.plain ['x']],
        ∀ lines,
          wrapValue 0 (cellValue cell) a4Env.font
            ((fontSizeOverride cell).getD defaultOptions.fontSize)
            ((a4Env.width - defaultOptions.margin.left - defaultOptions.margin.right)
              / ([Cell.styled { text := ['a', 'b'], fontSize := some 20 },
                  Cell.plain ['x']].length : ℕ)
              - defaultOptions.cellPadding.left - defaultOptions.cellPadding.right)
            = .ok lines →
          lines.length * (fontSizeOverride cell).getD defaultOptions.fontSize
            + defaultOptions.cellPadding.top + defaultOptions.cellPadding.bottom ≤ h := by
  obtain ⟨h, hrow, -, hbound, -⟩ :=
    rowHeight_is_max 0 a4Env defaultOptions
      [.styled { text := ['a', 'b'], fontSize := some 20 }, .plain ['x']]
      (by decide!) (by decide!) (by decide!)
      (by
        intro cell hc s hs
        simp only [List.mem_cons, List.mem_singleton, List.not_mem_nil, or_false] at hc
        rcases hc with rfl | rfl
        · simp only [fontSizeOverride, Option.some.injEq] at hs
          subst hs
          norm_num
        · simp [fontSizeOverride] at hs)
      (by
        intro cell hc
        simp only [List.mem_cons, List.mem_singleton, List.not_mem_nil, or_false] at hc
        rcases hc with rfl | rfl
        · exact ⟨[['a', 'b']], by decide!⟩
        · exact ⟨[['x']], by decide!⟩)
  exact ⟨h, hrow, hbound⟩

/-- C12: with the options and the font size of the cell fixed and not
negative, replacing one cell of a row by a cell that wraps to at least as many
lines, the other cells unchanged, gives a pre-pass height that is not lower. -/
theorem rowHeight_mono_lineCount (fuel : Nat) (env : Env) (opts : Options)
    (pre post : List Cell) (c c' : Cell) (lines lines' : List Str) (h : ℚ)
    (hfs : 0 ≤ cellFontSize opts.fontSize c)
    (hsame : cellFontSize opts.fontSize c' = cellFontSize opts.fontSize c)
    (hw : wrapValue fuel (cellValue c) env.font (cellFontSize opts.fontSize c)
      (usableWidth env opts / (pre ++ c :: post).length
        - opts.cellPadding.left - opts.cellPadding.right) = .ok lines)
    (hw' : wrapValue fuel (cellValue c') env.font (cellFontSize opts.fontSize c')
      (usableWidth env opts / (pre ++ c' :: post).length
        - opts.cellPadding.left - opts.cellPadding.right) = .ok lines')
    (hle : lines.length ≤ lines'.length)
    (hrow : rowHeight fuel env opts (pre ++ c :: post) = .ok h) :
    ∃ h', rowHeight fuel env opts (pre ++ c' :: post) = .ok h' ∧ h ≤ h' := by
  have hlen : (pre ++ c' :: post).length = (pre ++ c :: post).length := by simp
  have hc : cellHeight fuel env opts (pre ++ c :: post).length c
      = .ok (lines.length * cellFontSize opts.fontSize c
        + opts.cellPadding.top + opts.cellPadding.bottom) := by
    simp only [cellHeight, hw]
  have hc' : cellHeight fuel env opts (pre ++ c :: post).length c'
      = .ok (lines'.length * cellFontSize opts.fontSize c'
        + opts.cellPadding.top + opts.cellPadding.bottom) := by
    rw [hlen] at hw'
    simp only [cellHeight, hw']
  have hheights : (lines.length : ℚ) * cellFontSize opts.fontSize c
        + opts.cellPadding.top + opts.cellPadding.bottom
      ≤ lines'.length * cellFontSize opts.fontSize c'
        + opts.cellPadding.top + opts.cellPadding.bottom := by
    rw [hsame]
    have hcast : (lines.length : ℚ) ≤ lines'.length := by exact_mod_cast hle
    have := mul_le_mul_of_nonneg_right hcast hfs
    linarith
  obtain ⟨h', hh', hle'⟩ := maxCellHeightLoop_mono_cell fuel env opts (pre ++ c :: post).length
    c c' _ _ post hc hc' hheights pre 0 h hrow
  refine ⟨h', ?_, hle'⟩
  simp only [rowHeight, hlen]
  exact hh'

/-- C12 on the narrow test page: in a row of two cells, `abc` (one line) is
replaced by `abc def` (two lines at content width 5). -/
theorem rowHeight_mono_lineCount_witness :
    rowHeight 0 narrowEnv defaultOptions [.plain "abc".toList, .plain ['y']] = .ok 24 ∧
    ∃ h', rowHeight 0 narrowEnv defaultOptions [.plain "abc def".toList, .plain ['y']]
        = .ok h' ∧ 24 ≤ h' :=
  ⟨by decide!,
    rowHeight_mono_lineCount 0 narrowEnv defaultOptions [] [.plain ['y']]
      (.plain "abc".toList) (.plain "abc def".toList) ["abc".toList]
      ["abc".toList, "def".toList] 24 (by decide!) rfl (by decide!) (by decide!) (by decide)
      (by decide!)⟩

/-! ## The caching variant against the source -/

/-- When the caching inner loop fails, the source's inner loop fails the same
way. -/
theorem cachedCellLoop_error (fuel : Nat) (env : Env) (opts : Options) (n : Nat) :
    ∀ (cells : List Cell) (m : ℚ) (e : Fault),
      cachedCellLoop fuel env opts n cells m = .error e →
      maxCellHeightLoop fuel env opts n cells m = .error e := by
  intro cells
  induction cells with
  | nil => intro m e h; simp [cachedCellLoop] at h
  | cons cell rest ih =>
    intro m e h
    simp only [cachedCellLoop] at h
    simp only [maxCellHeightLoop, cellHeight]
    cases hw : wrapValue fuel (cellValue cell) env.font (cellFontSize opts.fontSize cell)
        (usableWidth env opts / n - opts.cellPadding.left - opts.cellPadding.right) with
    | error e' =>
      rw [hw] at h
      simp only [Except.error.injEq] at h
      subst h
      rfl
    | ok lines =>
      rw [hw] at h
      simp only at h ⊢
      split at h
      · rename_i e' hrest
        simp only [Except.error.injEq] at h
        subst h
        exact ih _ _ hrest
      · cases h

/-- When the caching inner loop returns, the source's inner loop returns the
same height, and the cached lines are what each cell wraps to. -/
theorem cachedCellLoop_ok (fuel : Nat) (env : Env) (opts : Options) (n : Nat) :
    ∀ (cells : List Cell) (m h : ℚ) (cache : List (List Str)),
      cachedCellLoop fuel env opts n cells m = .ok (h, cache) →
      maxCellHeightLoop fuel env opts n cells m = .ok h ∧
      List.Forall₂ (fun cell lines =>
        wrapValue fuel (cellValue cell) env.font (cellFontSize opts.fontSize cell)
          (usableWidth env opts / n - opts.cellPadding.left - opts.cellPadding.right)
          = .ok lines) cells cache := by
  intro cells
  induction cells with
  | nil =>
    intro m h cache hok
    simp only [cachedCellLoop, Except.ok.injEq, Prod.mk.injEq] at hok
    obtain ⟨rfl, rfl⟩ := hok
    exact ⟨rfl, List.Forall₂.nil⟩
  | cons cell rest ih =>
    intro m h cache hok
    simp only [cachedCellLoop] at hok
    simp only [maxCellHeightLoop, cellHeight]
    cases hw : wrapValue fuel (cellValue cell) env.font (cellFontSize opts.fontSize cell)
        (usableWidth env opts / n - opts.cellPadding.left - opts.cellPadding.right) with
    | error e' =>
      rw [hw] at hok
      cases hok
    | ok lines =>
      rw [hw] at hok
      simp only at hok ⊢
      split at hok
      · cases hok
      · rename_i h' cache' hrest
        simp only [Except.ok.injEq, Prod.mk.injEq] at hok
        obtain ⟨rfl, rfl⟩ := hok
        obtain ⟨hloop, hall⟩ := ih _ _ _ hrest
        exact ⟨hloop, List.Forall₂.cons hw hall⟩

/-- When the caching pre-pass fails, the source's pre-pass fails the same
way. -/
theorem cachedPrePass_error (fuel : Nat) (env : Env) (opts : Options) :
    ∀ (rows : List (List Cell)) (e : Fault),
      cachedPrePass fuel env opts rows = .error e → rowHeights fuel env opts rows = .error e := by
  intro rows
  induction rows with
  | nil => intro e h; simp [cachedPrePass] at h
  | cons row rest ih =>
    intro e h
    simp only [cachedPrePass] at h
    simp only [rowHeights, rowHeight]
    split at h
    · rename_i e' hrow
      simp only [Except.error.injEq] at h
      subst h
      rw [cachedCellLoop_error fuel env opts row.length row 0 _ hrow]
    · rename_i rc hrow
      obtain ⟨h0, cache⟩ := rc
      rw [(cachedCellLoop_ok fuel env opts row.length row 0 h0 cache hrow).1]
      split at h
      · rename_i e' hrest
        simp only [Except.error.injEq] at h
        subst h
        simp only [ih _ hrest]
      · cases h

/-- When the caching pre-pass returns, the source's pre-pass returns the same
heights, and the cached lines of each row are what its cells wrap to. -/
theorem cachedPrePass_ok (fuel : Nat) (env : Env) (opts : Options) :
    ∀ (rows : List (List Cell)) (cache : List (ℚ × List (List Str))),
      cachedPrePass fuel env opts rows = .ok cache →
      rowHeights fuel env opts rows = .ok (cache.map Prod.fst) ∧
      List.Forall₂ (fun row rc =>
        List.Forall₂ (fun cell lines =>
          wrapValue fuel (cellValue cell) env.font (cellFontSize opts.fontSize cell)
            (usableWidth env opts / row.length - opts.cellPadding.left
              - opts.cellPadding.right) = .ok lines) row rc.2) rows cache := by
  intro rows
  induction rows with
  | nil =>
    intro cache h
    simp only [cachedPrePass, Except.ok.injEq] at h
    subst h
    exact ⟨rfl, List.Forall₂.nil⟩
  | cons row rest ih =>
    intro cache h
    simp only [cachedPrePass] at h
    split at h
    · cases h
    · rename_i rc hrow
      obtain ⟨h0, lines⟩ := rc
      split at h
      · cases h
      · rename_i rcs hrest
        simp only [Except.ok.injEq] at h
        subst h
        obtain ⟨hloop, hall⟩ := cachedCellLoop_ok fuel env opts row.length row 0 h0 lines hrow
        obtain ⟨hrows, hrest'⟩ := ih rcs hrest
        refine ⟨?_, List.Forall₂.cons hall hrest'⟩
        simp only [rowHeights, rowHeight, hloop, hrows, List.map_cons]

/-- The source's cell loop, over cells that wrap to the cached lines, returns
the calls of the caching cell loop. -/
theorem drawCells_eq_cached (fuel : Nat) (env : Env) (opts : Options) (page : Nat)
    (currentY totalHeight cellWidth maxCellHeight : ℚ) :
    ∀ (row : List Cell) (cache : List (List Str)),
      List.Forall₂ (fun cell lines =>
        wrapValue fuel (cellValue cell) env.font (cellFontSize opts.fontSize cell)
          (cellWidth - opts.cellPadding.left - opts.cellPadding.right) = .ok lines) row cache →
      ∀ j : Nat,
        drawCells fuel env opts page currentY totalHeight cellWidth maxCellHeight j row
          = .ok (drawCellsCached env opts page currentY totalHeight cellWidth maxCellHeight
              j row cache) := by
  intro row cache hall
  induction hall with
  | nil => intro j; rfl
  | @cons cell lines rest cache' hw _ ih =>
    intro j
    have hcell := drawCell_ok fuel env opts page currentY totalHeight cellWidth maxCellHeight
      j cell lines hw
    simp only [drawCells, hcell, ih (j + 1), drawCellsCached]

/-- The source's row loop, over rows that wrap to the cached lines, returns
the result of the caching row loop. -/
theorem drawRows_eq_cached (fuel : Nat) (env : Env) (opts : Options) :
    ∀ (rows : List (List Cell)) (cache : List (ℚ × List (List Str))),
      List.Forall₂ (fun row rc =>
        List.Forall₂ (fun cell lines =>
          wrapValue fuel (cellValue cell) env.font (cellFontSize opts.fontSize cell)
            (usableWidth env opts / row.length - opts.cellPadding.left
              - opts.cellPadding.right) = .ok lines) row rc.2) rows cache →
      ∀ cur : Cursor,
        drawRows fuel env opts cur (rows.zip (cache.map Prod.fst))
          = .ok (drawRowsCached env opts cur (rows.zip cache)) := by
  intro rows cache hall
  induction hall with
  | nil => intro cur; rfl
  | @cons row rc rest cache' hrow _ ih =>
    intro cur
    have hcells := drawCells_eq_cached fuel env opts (breakPage env opts cur rc.1).currentPage
      (breakPage env opts cur rc.1).currentY rc.1 (usableWidth env opts / row.length) rc.1
      row rc.2 hrow 0
    have hdraw : drawRow fuel env opts cur row rc.1 = .ok (drawRowCached env opts cur row rc) := by
      simp only [drawRow, hcells, drawRowCached]
    show drawRows fuel env opts cur ((row, rc.1) :: rest.zip (cache'.map Prod.fst)) =
      .ok (drawRowsCached env opts cur ((row, rc) :: rest.zip cache'))
    simp only [drawRows, hdraw, ih (drawRowCached env opts cur row rc).1, drawRowsCached]

/-! ## More claims on drawTable -/

/-- C13: the variant that reuses the lines wrapped in the pre-pass gives the
same result as `drawTable` on every input: the same fault, or the same draw
calls in the same order with the same arguments, the same `lastPage`, `endY`
and pages added. And a cell whose height `ch` the pre-pass computed is drawn,
at the column width of its row, with as many texts as the line count `ch` was
computed from. -/
theorem drawTableCached_eq_drawTable (fuel : Nat) (env : Env) (headers : List Str)
    (rows : List (List Cell)) (opts : Options) :
    drawTableCached fuel env headers rows opts = drawTable fuel env headers rows opts ∧
    ∀ (n : Nat) (cell : Cell) (ch : ℚ) (page : Nat) (currentY totalHeight maxCellHeight : ℚ)
      (j : Nat), cellHeight fuel env opts n cell = .ok ch →
      ∃ calls,
        drawCell fuel env opts page currentY totalHeight (usableWidth env opts / n)
          maxCellHeight j cell = .ok calls ∧
        ch = (texts calls).length * cellFontSize opts.fontSize cell
          + opts.cellPadding.top + opts.cellPadding.bottom := by
  refine ⟨?_, ?_⟩
  · cases hpre : cachedPrePass fuel env opts rows with
    | error e =>
      simp only [drawTableCached, hpre, drawTable,
        cachedPrePass_error fuel env opts rows e hpre]
    | ok cache =>
      obtain ⟨hrows, hall⟩ := cachedPrePass_ok fuel env opts rows cache hpre
      have hdraw := drawRows_eq_cached fuel env opts rows cache hall
        ⟨0, tableStartY opts headers, 0⟩
      cases hr : drawRowsCached env opts ⟨0, tableStartY opts headers, 0⟩ (rows.zip cache) with
      | mk cur rowCalls =>
        rw [hr] at hdraw
        simp only [drawTableCached, hpre, hr, drawTable, hrows, hdraw]
  · intro n cell ch page currentY totalHeight maxCellHeight j hch
    simp only [cellHeight] at hch
    split at hch
    · cases hch
    · rename_i lines hwrap
      simp only [Except.ok.injEq] at hch
      obtain ⟨-, hl2, -, -⟩ := drawLines_spec env opts page cell
        (opts.margin.left + usableWidth env opts / n * j) (currentY - totalHeight)
        (usableWidth env opts / n) maxCellHeight lines 0
      refine ⟨_, drawCell_ok fuel env opts page currentY totalHeight (usableWidth env opts / n)
        maxCellHeight j cell lines hwrap, ?_⟩
      have hlen := congrArg List.length hl2
      rw [List.length_map] at hlen
      simp only [texts, hlen]
      exact hch.symm

/-- C13 at a table of one row of two cells on the narrow test page, where one
cell wraps to two lines. -/
theorem drawTableCached_eq_drawTable_witness :
    drawTableCached 0 narrowEnv testHeaders [[.plain "abc def".toList, .plain ['y']]]
        defaultOptions
      = drawTable 0 narrowEnv testHeaders [[.plain "abc def".toList, .plain ['y']]]
        defaultOptions ∧
    ∃ calls,
      drawCell 0 narrowEnv defaultOptions 0 800 38 (usableWidth narrowEnv defaultOptions / (2 : ℕ))
        38 0 (.plain "abc def".toList) = .ok calls ∧
      (38 : ℚ) = (texts calls).length * cellFontSize defaultOptions.fontSize
          (.plain "abc def".toList)
        + defaultOptions.cellPadding.top + defaultOptions.cellPadding.bottom :=
  ⟨(drawTableCached_eq_drawTable 0 narrowEnv testHeaders
      [[.plain "abc def".toList, .plain ['y']]] defaultOptions).1,
    (drawTableCached_eq_drawTable 0 narrowEnv testHeaders
      [[.plain "abc def".toList, .plain ['y']]] defaultOptions).2 2 (.plain "abc def".toList) 38
      0 800 38 38 0 (by decide!)⟩

/-- The midpoint of a centred line lies `cellPadding.left` to the left of the
midpoint of the content box
`[cellStartX + cellPadding.left, cellStartX + cellWidth - cellPadding.right]`. -/
theorem textX_centred_midpoint (env : Env) (opts : Options) (o : CellObject)
    (cellStartX cellWidth : ℚ) (line : Str) (hc : o.align = some Align.center) :
    textX env opts (.styled o) cellStartX cellWidth line
        + env.font.widthOfTextAtSize line (cellFontSize opts.fontSize (.styled o)) / 2
      = ((cellStartX + opts.cellPadding.left)
          + (cellStartX + cellWidth - opts.cellPadding.right)) / 2
        - opts.cellPadding.left := by
  simp only [textX, hc, if_true]
  ring

/-- C14 (the code does not meet it): the centred cell `ab` in a column that
starts at 50 and is 247.64 wide, with the default padding of 5, has its line
drawn with midpoint 168.82, while the midpoint of the content box
`[50 + 5, 50 + 247.64 - 5]` is 173.82: the line sits `cellPadding.left` to the
left of the centre. -/
theorem drawCell_centred_line_off_centre :
    (drawCell 0 a4Env defaultOptions 0 800 24 (24764 / 100) 24 0
        (.styled { text := ['a', 'b'], align := some Align.center })).map
      (fun calls => ((rectangles calls).map (fun r => (r.x, r.width)),
        (texts calls).map (fun t => t.x + a4Env.font.widthOfTextAtSize t.text t.size / 2)))
      = .ok ([(50, 24764 / 100)], [16882 / 100]) ∧
    ((50 + defaultOptions.cellPadding.left)
      + (50 + 24764 / 100 - defaultOptions.cellPadding.right)) / 2 = (17382 / 100 : ℚ) ∧
    (16882 / 100 : ℚ) ≠ 17382 / 100 := by
  refine ⟨?_, ?_, ?_⟩ <;> decide!

/-- C15 as stated fails: a cell with the background colour (0.8, 0.8, 0.8)
gets a rectangle of that colour with the fill flag `false`, not `true`; and a
cell without a background colour gets the colour white, `rgb(1, 1, 1)`, with
the fill flag `false`. -/
theorem drawCell_rectangle_fill_counterexample :
    (drawCell 0 a4Env defaultOptions 0 800 24 (24764 / 100) 24 0
        (.styled { text := ['a'], backgroundColor := some ⟨8 / 10, 8 / 10, 8 / 10⟩ })).map
      (fun calls => (rectangles calls).map (fun r => (r.fill, r.color)))
      = .ok [(false, ⟨8 / 10, 8 / 10, 8 / 10⟩)] ∧
    (drawCell 0 a4Env defaultOptions 0 800 24 (24764 / 100) 24 0 (.plain ['a'])).map
      (fun calls => (rectangles calls).map (fun r => (r.fill, r.color)))
      = .ok [(false, rgb 1 1 1)] := by
  refine ⟨?_, ?_⟩ <;> decide!

/-- C15 (amended): the one rectangle `drawTable` requests for a data cell has
the fill flag `false` in every case; its colour is the cell's
`backgroundColor` when the cell is an object that specifies one, and white,
`rgb(1, 1, 1)`, when the cell specifies none. -/
theorem drawCell_rectangle_fill (fuel : Nat) (env : Env) (opts : Options) (page : Nat)
    (currentY totalHeight cellWidth maxCellHeight : ℚ) (j : Nat) (cell : Cell)
    (lines : List Str)
    (hwrap : wrapValue fuel (cellValue cell) env.font (cellFontSize opts.fontSize cell)
      (cellWidth - opts.cellPadding.left - opts.cellPadding.right) = .ok lines) :
    ∃ calls r,
      drawCell fuel env opts page currentY totalHeight cellWidth maxCellHeight j cell
        = .ok calls ∧
      rectangles calls = [r] ∧ r.fill = false ∧
      ((∀ o, cell = .styled o → o.backgroundColor = none) → r.color = rgb 1 1 1) ∧
      (∀ o c, cell = .styled o → o.backgroundColor = some c → r.color = c) := by
  have hcell := drawCell_ok fuel env opts page currentY totalHeight cellWidth maxCellHeight
    j cell lines hwrap
  obtain ⟨hl1, -, -, -⟩ := drawLines_spec env opts page cell
    (opts.margin.left + cellWidth * j) (currentY - totalHeight) cellWidth maxCellHeight lines 0
  refine ⟨_, cellRect opts cell (opts.margin.left + cellWidth * j) (currentY - totalHeight)
    cellWidth maxCellHeight, hcell, ?_, rfl, ?_, ?_⟩
  · simp only [rectangles, hl1]
  · intro hnone
    cases cell with
    | plain s => rfl
    | styled o => simp [cellRect, hnone o rfl]
  · intro o c ho hbg
    subst ho
    simp [cellRect, hbg]

/-- C15 (amended) at a cell with the background colour (0.8, 0.8, 0.8). -/
theorem drawCell_rectangle_fill_witness :
    ∃ calls r,
      drawCell 0 a4Env defaultOptions 0 800 24 (24764 / 100) 24 0
        (.styled { text := ['a'], backgroundColor := some ⟨8 / 10, 8 / 10, 8 / 10⟩ })
        = .ok calls ∧
      rectangles calls = [r] ∧ r.fill = false ∧ r.color = ⟨8 / 10, 8 / 10, 8 / 10⟩ := by
  obtain ⟨calls, r, hcell, hrect, hfill, -, hbg⟩ :=
    drawCell_rectangle_fill 0 a4Env defaultOptions 0 800 24 (24764 / 100) 24 0
      (.styled { text := ['a'], backgroundColor := some ⟨8 / 10, 8 / 10, 8 / 10⟩ }) [['a']]
      (by decide!)
  exact ⟨calls, r, hcell, hrect, hfill, hbg _ _ rfl rfl⟩

/-- The empty text wraps to no line, whatever the budget. -/
theorem wrapTextIntoLines_nil (fuel : Nat) (font : Font) (S W : ℚ) :
    wrapTextIntoLines fuel [] font S W = .ok [] := by
  have hsplit : ([] : Str).splitOn ' ' = [[]] := rfl
  unfold wrapTextIntoLines
  rw [hsplit]
  simp only [wordLoop, wordStep]
  rw [if_neg (fun h => h.1 rfl)]
  by_cases hfit : font.widthOfTextAtSize [] S ≤ W
  · rw [if_pos hfit]
    simp
  · rw [if_neg hfit]
    cases fuel <;> simp [splitLoop]

/-- C16 (the code does not meet it): a table whose one row is one object cell
with the empty text makes `drawTable` fail with a TypeError, whatever the
other fields of the cell; the bare string `''` in its place wraps to no line,
has cell height `cellPadding.top + cellPadding.bottom`, and the table is
drawn with one rectangle and no text for it. -/
theorem drawTable_empty_text_object_throws (fuel : Nat) (env : Env) (headers : List Str)
    (opts : Options) (o : CellObject) :
    drawTable fuel env headers [[.styled { o with text := [] }]] opts = .error .typeError ∧
    (∀ S W : ℚ, wrapValue fuel (cellValue (.plain [])) env.font S W = .ok []) ∧
    cellHeight fuel env opts 1 (.plain [])
      = .ok (opts.cellPadding.top + opts.cellPadding.bottom) ∧
    ∃ out, drawTable fuel env headers [[.plain []]] opts = .ok out ∧
      (rectangles out.calls).length = headers.length + 1 ∧
      (texts out.calls).length = headers.length := by
  have hw : ∀ S W : ℚ, wrapValue fuel (cellValue (.plain [])) env.font S W = .ok [] := by
    intro S W
    simp only [cellValue, wrapValue, wrapTextIntoLines_nil]
  have hch : cellHeight fuel env opts 1 (.plain [])
      = .ok (opts.cellPadding.top + opts.cellPadding.bottom) := by
    simp only [cellHeight, hw]
    simp
  refine ⟨?_, hw, hch, ?_⟩
  · simp [drawTable, rowHeights, rowHeight, maxCellHeightLoop, cellHeight, cellValue, wrapValue]
  · obtain ⟨h, hh⟩ := maxCellHeightLoop_returns fuel env opts 1 [.plain []] 0
      (fun cell hc => by
        rw [List.mem_singleton] at hc
        subst hc
        exact ⟨_, hch⟩)
    have hpre : rowHeights fuel env opts [[.plain []]] = .ok [h] := by
      simp only [rowHeights, rowHeight, List.length_singleton, hh]
    have hrow : ∀ cur : Cursor, drawRow fuel env opts cur [.plain []] h
        = .ok (rowCursor env opts cur h,
          [⟨(breakPage env opts cur h).currentPage,
            .rectangle (cellRect opts (.plain []) (opts.margin.left
              + usableWidth env opts / (1 : ℕ) * (0 : ℕ))
              ((breakPage env opts cur h).currentY - h) (usableWidth env opts / (1 : ℕ)) h)⟩]) := by
      intro cur
      simp only [drawRow, drawCells, drawCell, hw, drawLines, rowCursor, List.length_singleton,
        List.append_nil]
    obtain ⟨hr, ht, -, -⟩ :=
      drawHeaders_spec env opts headers.length (tableStartY opts headers) headers 0
    obtain ⟨out, page, r, hout, hcalls⟩ : ∃ out page r,
        drawTable fuel env headers [[.plain []]] opts = .ok out ∧
        out.calls = drawHeaders env opts headers.length (tableStartY opts headers) 0 headers
          ++ [⟨page, .rectangle r⟩] := by
      simp only [drawTable, hpre, List.zip_cons_cons, List.zip_nil_right, drawRows, hrow,
        List.append_nil]
      exact ⟨_, _, _, rfl, rfl⟩
    refine ⟨out, hout, ?_, ?_⟩
    · simp only [hcalls, rectangles_append, hr, rectangles, List.length_append,
        List.length_map, List.length_range', List.length_singleton]
    · have hlen := congrArg List.length ht
      rw [List.length_map] at hlen
      simp only [hcalls, texts_append, texts, List.length_append, hlen, List.length_nil,
        add_zero]

/-- C20 as stated fails for a row that moves to a new page: the row `x`, `y`
of height 24 met at cursor -30 fits a page (24 <= 841.89 - 10 - 50), and its
rectangles have top edge 831.89, which is `newPage.height - margin.top` and
not the cursor before the row. -/
theorem drawRow_top_edge_counterexample :
    rowHeight 0 a4Env defaultOptions [.plain ['x'], .plain ['y']] = .ok 24 ∧
    (24 : ℚ) ≤ a4Env.newPageHeight - defaultOptions.margin.top - defaultOptions.margin.bottom ∧
    (drawRow 0 a4Env defaultOptions ⟨0, -30, 0⟩ [.plain ['x'], .plain ['y']] 24).map
      (fun r => (rectangles r.2).map (fun a => a.y + 24))
      = .ok [83189 / 100, 83189 / 100] ∧
    (83189 / 100 : ℚ) ≠ -30 := by
  refine ⟨?_, ?_, ?_, ?_⟩ <;> decide!

/-- C20 (amended): a row with pre-computed height `h` is drawn with one
rectangle a cell. When it moves to a new page, the top edge `y + h` of every
rectangle is `newPage.height - margin.top`, and the bottom edge `y` is at
least `margin.bottom` provided `h <= newPage.height - margin.top -
margin.bottom`. When it is drawn without a page break, the top edge of every
rectangle is the cursor before the row and the bottom edge is at least
`margin.bottom`, with no condition on `h`. -/
theorem drawRow_above_bottom_margin (fuel : Nat) (env : Env) (opts : Options) (cur : Cursor)
    (row : List Cell) (h : ℚ) (hpre : rowHeight fuel env opts row = .ok h) :
    ∃ cur' calls, drawRow fuel env opts cur row h = .ok (cur', calls) ∧
      (rectangles calls).length = row.length ∧
      (cur.currentY - h < opts.margin.bottom →
        (∀ r ∈ rectangles calls, r.y + h = env.newPageHeight - opts.margin.top) ∧
        (h ≤ env.newPageHeight - opts.margin.top - opts.margin.bottom →
          ∀ r ∈ rectangles calls, opts.margin.bottom ≤ r.y)) ∧
      (¬ cur.currentY - h < opts.margin.bottom →
        ∀ r ∈ rectangles calls, opts.margin.bottom ≤ r.y ∧ r.y + h = cur.currentY) := by
  obtain ⟨calls, hcalls, -, hrect⟩ := drawRow_ok fuel env opts cur row h h hpre
  have hy : ∀ r ∈ rectangles calls, r.y = (breakPage env opts cur h).currentY - h := by
    intro r hr
    rw [hrect, List.mem_map] at hr
    obtain ⟨p, -, rfl⟩ := hr
    simp [cellRect]
  refine ⟨rowCursor env opts cur h, calls, hcalls, ?_, ?_, ?_⟩
  · rw [hrect, List.length_map, List.enumFrom_length]
  · intro hbreak
    have hb : (breakPage env opts cur h).currentY = env.newPageHeight - opts.margin.top := by
      simp [breakPage, hbreak]
    refine ⟨fun r hr => ?_, fun hfit r hr => ?_⟩
    · rw [hy r hr, hb]; ring
    · rw [hy r hr, hb]; linarith
  · intro hbreak
    have hb : (breakPage env opts cur h).currentY = cur.currentY := by
      simp [breakPage, hbreak]
    intro r hr
    rw [hy r hr, hb]
    exact ⟨not_lt.mp hbreak, by ring⟩

/-- C20 (amended) at the row `x`, `y` met at cursor 800 on the test page: it
is drawn without a page break, above the bottom margin. -/
theorem drawRow_above_bottom_margin_witness :
    ∃ cur' calls,
      drawRow 0 a4Env defaultOptions ⟨0, 800, 0⟩ [.plain ['x'], .plain ['y']] 24
        = .ok (cur', calls) ∧
      (rectangles calls).length = 2 ∧
      ∀ r ∈ rectangles calls, (50 : ℚ) ≤ r.y ∧ r.y + 24 = 800 := by
  obtain ⟨cur', calls, hrow, hlen, -, hstay⟩ :=
    drawRow_above_bottom_margin 0 a4Env defaultOptions ⟨0, 800, 0⟩
      [.plain ['x'], .plain ['y']] 24 (by decide!)
  exact ⟨cur', calls, hrow, hlen, hstay (by decide!)⟩

end AutoTable
